import Mathlib

/-!
Verification of the CPM scheduling engine of `src/utils/criticalPathUtils.ts`
(PersonalScheduler). JS numbers (durations in hours, `Date.getTime()` values in
milliseconds) are modelled as rationals; JS `Map`s as insertion-ordered
association lists; the `while` loops as fuel-bounded recursion with a fuel
argument large enough that the loop always exits through its own condition.
-/

set_option autoImplicit false
set_option maxHeartbeats 1000000

namespace PersonalScheduler

/-- Input task record (`Task` in `src/types.ts`), restricted to the fields the
engine reads: `id`, `estimatedDuration` (hours), `startDate` (ms since epoch,
the value of `new Date(task.startDate).getTime()`), `dependencies`. -/
structure Task where
  id : String
  estimatedDuration : ℚ
  startDate : ℚ
  dependencies : List String
deriving DecidableEq, Repr

/-- JS `Map.set` on an insertion-ordered association list: replace the value in
place when the key is present, append otherwise. -/
def mapSet {α : Type} (k : String) (v : α) : List (String × α) → List (String × α)
  | [] => [(k, v)]
  | (k', v') :: l => if k' = k then (k, v) :: l else (k', v') :: mapSet k v l

/-- JS `Map.get` (`none` models `undefined`). -/
def mapGet? {α : Type} (k : String) (l : List (String × α)) : Option α :=
  (l.find? (fun p => p.1 == k)).map (·.2)

/-- `taskMap.get id` for `taskMap = new Map(tasks.map(t => [t.id, t]))`:
with duplicate keys the last insertion wins. -/
def findTask (tasks : List Task) (id : String) : Option Task :=
  tasks.reverse.find? (fun t => t.id == id)

/-- `getHoursDifference` (line 95): `(end - start) / (1000*60*60)`. -/
def getHoursDifference (start stop : ℚ) : ℚ :=
  (stop - start) / (1000 * 60 * 60)

/-- Content of the `predecessors` map built by `buildDependencyGraph`
(lines 23-52): the dependency lists of the tasks carrying this id, in task
order; `[]` when the id is absent (JS `get(...) || []`). -/
def predecessorsOf (tasks : List Task) (id : String) : List String :=
  (tasks.filter (fun t => t.id == id)).flatMap (·.dependencies)

/-- Content of the `successors` map of `buildDependencyGraph`: one occurrence
of `t.id` per occurrence of `id` in `t.dependencies`, in task order. -/
def successorsOf (tasks : List Task) (id : String) : List String :=
  tasks.flatMap (fun t => (t.dependencies.filter (fun d => d == id)).map (fun _ => t.id))

/-- In-degree map of `topologicalSort` (lines 60-66): per task, the number of
dependency occurrences naming an existing task. -/
def topoInDegree (tasks : List Task) : List (String × Int) :=
  tasks.foldl (fun m t =>
    mapSet t.id
      (((predecessorsOf tasks t.id).filter (fun p => tasks.any (fun u => u.id == p))).length : Int)
      m) []

/-- Initial Kahn queue (lines 69-73): tasks whose in-degree entry is `0`. -/
def topoInitQueue (tasks : List Task) (deg : List (String × Int)) : List String :=
  (tasks.filter (fun t => mapGet? t.id deg == some 0)).map (·.id)

/-- Body of the per-task update inside the dequeue step (lines 81-87):
decrement a task that lists the popped id among its dependencies, enqueueing
it when it reaches zero. -/
def topoDecStep (taskId : String) (dq : List (String × Int) × List String) (t : Task) :
    List (String × Int) × List String :=
  if taskId ∈ t.dependencies then
    let newDegree := (mapGet? t.id dq.1).getD 0 - 1
    let deg' := mapSet t.id newDegree dq.1
    if newDegree = 0 then (deg', dq.2 ++ [t.id]) else (deg', dq.2)
  else dq

/-- The dequeue step (lines 80-88): the update above, folded over all tasks. -/
def topoDecrement (tasks : List Task) (taskId : String)
    (dq : List (String × Int) × List String) : List (String × Int) × List String :=
  tasks.foldl (topoDecStep taskId) dq

/-- The `while` loop of `topologicalSort` (lines 75-89), FIFO queue. -/
def topoLoop (tasks : List Task) :
    ℕ → List String → List String → List (String × Int) → List String
  | 0, _, result, _ => result
  | _ + 1, [], result, _ => result
  | fuel + 1, taskId :: rest, result, deg =>
      let dq := topoDecrement tasks taskId (deg, rest)
      topoLoop tasks fuel dq.2 (result ++ [taskId]) dq.1

/-- `topologicalSort` (lines 55-92). Fuel `2n+1` bounds the number of loop
iterations: at most `n` initial queue entries plus at most one late enqueue
per id (an id is enqueued late only when its degree first reaches zero). -/
def topologicalSort (tasks : List Task) : List String :=
  let deg := topoInDegree tasks
  topoLoop tasks (2 * tasks.length + 1) (topoInitQueue tasks deg) [] deg

/-- Entry of the forward-pass result map. -/
structure EsEf where
  es : ℚ
  ef : ℚ
deriving DecidableEq, Repr

/-- Entry of the backward-pass result map. -/
structure LsLf where
  ls : ℚ
  lf : ℚ
deriving DecidableEq, Repr

/-- `Math.max(...l)` of a nonempty list, with the `let es = 0` default of
lines 117-121 for the empty case. -/
def maxOrZero (l : List ℚ) : ℚ :=
  match l with
  | [] => 0
  | x :: xs => xs.foldl max x

/-- `Math.min(...l)` of a nonempty list, with the given default (line 161's
`lf = projectDuration`) for the empty case. -/
def minOrBase (base : ℚ) (l : List ℚ) : ℚ :=
  match l with
  | [] => base
  | x :: xs => xs.foldl min x

/-- One iteration of `forwardPass` (lines 109-132). -/
def fwdStep (tasks : List Task) (projectStartDate : ℚ)
    (results : List (String × EsEf)) (taskId : String) : List (String × EsEf) :=
  match findTask tasks taskId with
  | none => results
  | some task =>
    let preds := predecessorsOf tasks taskId
    let validPreds := preds.filter (fun p => (mapGet? p results).isSome)
    let es0 : ℚ := maxOrZero (validPreds.map (fun p => (((mapGet? p results).map EsEf.ef).getD 0)))
    let startOffset : ℚ := getHoursDifference projectStartDate task.startDate
    let es : ℚ := if startOffset > es0 then startOffset else es0
    let ef : ℚ := es + task.estimatedDuration
    mapSet taskId ⟨es, ef⟩ results

/-- `forwardPass` (lines 100-135). -/
def forwardPass (tasks : List Task) (sortedIds : List String) (projectStartDate : ℚ) :
    List (String × EsEf) :=
  sortedIds.foldl (fwdStep tasks projectStartDate) []

/-- One iteration of `backwardPass` (lines 150-169). -/
def bwdStep (tasks : List Task) (projectDuration : ℚ)
    (results : List (String × LsLf)) (taskId : String) : List (String × LsLf) :=
  match findTask tasks taskId with
  | none => results
  | some task =>
    let succs := successorsOf tasks taskId
    let validSuccs := succs.filter (fun s => (mapGet? s results).isSome)
    let lf : ℚ :=
      minOrBase projectDuration
        (validSuccs.map (fun s => (((mapGet? s results).map LsLf.ls).getD 0)))
    let ls := lf - task.estimatedDuration
    mapSet taskId ⟨ls, lf⟩ results

/-- `backwardPass` (lines 138-172): the fold runs over the reversed order. -/
def backwardPass (tasks : List Task) (sortedIds : List String) (projectDuration : ℚ) :
    List (String × LsLf) :=
  sortedIds.reverse.foldl (bwdStep tasks projectDuration) []

/-- Logical project duration (lines 206-211): fold of `ef` over the forward map
in insertion order, starting from 0. -/
def logicalDurationOf (fwd : List (String × EsEf)) : ℚ :=
  fwd.foldl (fun d e => if e.2.ef > d then e.2.ef else d) 0

/-- Project anchor (lines 188-191): `reduce` over all tasks with the first
task's date as initial accumulator. -/
def projectStartDateOf (t0 : Task) (tasks : List Task) : ℚ :=
  tasks.foldl (fun m t => if t.startDate < m then t.startDate else m) t0.startDate

/-- Ready-queue comparator (lines 243-251), returned as the sign-carrying
rational the JS comparator computes: lateStart difference when the lateStarts
are more than `0.001` apart, duration difference (descending) otherwise.
`get(..)?.ls || 0` and `get(..)?.estimatedDuration || 0` default to 0. -/
def schedCmp (bwd : List (String × LsLf)) (tasks : List Task) (a b : String) : ℚ :=
  let lsA := ((mapGet? a bwd).map (·.ls)).getD 0
  let lsB := ((mapGet? b bwd).map (·.ls)).getD 0
  if |lsA - lsB| > 1/1000 then lsA - lsB
  else
    let durA := ((findTask tasks a).map (·.estimatedDuration)).getD 0
    let durB := ((findTask tasks b).map (·.estimatedDuration)).getD 0
    durB - durA

/-- Stable insertion into a list sorted by a JS-style comparator: the new
element goes before the first element it does not strictly follow. -/
def insertByCmp {α : Type} (cmp : α → α → ℚ) (a : α) : List α → List α
  | [] => [a]
  | b :: l => if cmp a b ≤ 0 then a :: b :: l else b :: insertByCmp cmp a l

/-- Stable sort by a JS-style comparator (`Array.prototype.sort` is stable;
for an inconsistent comparator ECMAScript leaves the order
implementation-defined, and this fixes one stable realisation). -/
def sortByCmp {α : Type} (cmp : α → α → ℚ) : List α → List α
  | [] => []
  | a :: l => insertByCmp cmp a (sortByCmp cmp l)

/-- State of the serial-scheduling loop (lines 216-279). -/
structure SchedState where
  queue : List String
  deg : List (String × Int)
  time : ℚ
  sched : List (String × EsEf)
  count : ℕ
deriving DecidableEq, Repr

/-- `currentInDegree` initialisation (lines 222-226): the raw, unfiltered
dependency-list length. -/
def schedInitDeg (tasks : List Task) : List (String × Int) :=
  tasks.foldl (fun m t => mapSet t.id ((predecessorsOf tasks t.id).length : Int) m) []

/-- Initial scheduler state (lines 229-238). -/
def schedInit (tasks : List Task) : SchedState :=
  let deg := schedInitDeg tasks
  { queue := (tasks.filter (fun t => (mapGet? t.id deg).getD 0 = 0)).map (·.id)
    deg := deg
    time := 0
    sched := []
    count := 0 }

/-- Body of the successor-update loop (lines 271-278): decrement the
successor's degree and enqueue it when the new degree is zero. -/
def schedSuccStep (dq : List (String × Int) × List String)
    (succId : String) : List (String × Int) × List String :=
  let newDegree := (mapGet? succId dq.1).getD 0 - 1
  let deg' := mapSet succId newDegree dq.1
  if newDegree = 0 then (deg', dq.2 ++ [succId]) else (deg', dq.2)

/-- Successor update after scheduling a task (lines 271-278). -/
def schedSuccUpdate (succs : List String)
    (dq : List (String × Int) × List String) : List (String × Int) × List String :=
  succs.foldl schedSuccStep dq

/-- One iteration of the scheduling loop (lines 240-279): sort the ready queue,
shift the head, schedule it at `max(currentTime, startOffset)`, advance the
clock, update successors. The source asserts the popped id has a task
(`taskMap.get(nextTaskId)!`); the `none` branch is unreachable for states
arising in the pipeline and merely keeps the function total. -/
def schedStep (tasks : List Task) (bwd : List (String × LsLf)) (projectStartDate : ℚ)
    (st : SchedState) : SchedState :=
  match sortByCmp (schedCmp bwd tasks) st.queue with
  | [] => st
  | nextTaskId :: rest =>
    match findTask tasks nextTaskId with
    | none => { st with queue := rest, count := st.count + 1 }
    | some nextTask =>
      let startOffset := getHoursDifference projectStartDate nextTask.startDate
      let es := max st.time startOffset
      let ef := es + nextTask.estimatedDuration
      let dq := schedSuccUpdate (successorsOf tasks nextTaskId) (st.deg, rest)
      { queue := dq.2
        deg := dq.1
        time := ef
        sched := mapSet nextTaskId ⟨es, ef⟩ st.sched
        count := st.count + 1 }

/-- The scheduling `while` loop (line 240): runs while fewer than `total`
tasks are scheduled and the ready queue is nonempty. Each iteration increments
`count`, so fuel `total + 1` always suffices to exit through the condition. -/
def schedLoop (tasks : List Task) (bwd : List (String × LsLf)) (projectStartDate : ℚ)
    (total : ℕ) : ℕ → SchedState → SchedState
  | 0, st => st
  | fuel + 1, st =>
    if st.count < total ∧ st.queue ≠ [] then
      schedLoop tasks bwd projectStartDate total fuel (schedStep tasks bwd projectStartDate st)
    else st

/-- The whole serial-scheduling phase, returning the final loop state. -/
def serialSchedule (tasks : List Task) (bwd : List (String × LsLf)) (projectStartDate : ℚ) :
    SchedState :=
  schedLoop tasks bwd projectStartDate tasks.length (tasks.length + 1) (schedInit tasks)

/-- `CPMTaskData` (lines 3-12). -/
structure CPMTaskData where
  taskId : String
  duration : ℚ
  es : ℚ
  ef : ℚ
  ls : ℚ
  lf : ℚ
  float : ℚ
  isCritical : Bool
deriving DecidableEq, Repr

/-- One iteration of the combine fold (lines 286-311): serial times fill
`es`/`ef`/`ls`/`lf`; the float and criticality come from the logical passes. -/
def combineStep (tasks : List Task) (fwd : List (String × EsEf)) (bwd : List (String × LsLf))
    (sched : List (String × EsEf)) (td : List (String × CPMTaskData)) (taskId : String) :
    List (String × CPMTaskData) :=
  match findTask tasks taskId, mapGet? taskId fwd, mapGet? taskId bwd, mapGet? taskId sched with
  | some task, some logicalFwd, some logicalBwd, some serial =>
    let logicalFloat := logicalBwd.ls - logicalFwd.es
    mapSet taskId
      { taskId := taskId
        duration := task.estimatedDuration
        es := serial.es
        ef := serial.ef
        ls := serial.es
        lf := serial.ef
        float := logicalFloat
        isCritical := decide (|logicalFloat| < 1/1000) } td
  | _, _, _, _ => td

/-- The combine fold over `sortedIds` (lines 284-311). -/
def buildTaskData (tasks : List Task) (sortedIds : List String) (fwd : List (String × EsEf))
    (bwd : List (String × LsLf)) (sched : List (String × EsEf)) :
    List (String × CPMTaskData) :=
  sortedIds.foldl (combineStep tasks fwd bwd sched) []

/-- `taskData.get(id)?.isCritical`, with falsy default. -/
def tdIsCritical (td : List (String × CPMTaskData)) (id : String) : Bool :=
  ((mapGet? id td).map (·.isCritical)).getD false

/-- `taskData.get(id)?.es || 0`. -/
def tdEs (td : List (String × CPMTaskData)) (id : String) : ℚ :=
  ((mapGet? id td).map (·.es)).getD 0

/-- Critical successors of a node, sorted ascending by a start-time key
(lines 364-366; the source's key is the `taskData` `es`, abstracted here so
that the claim's logical-start reading can be expressed with the same body). -/
def criticalSuccessorsOf (tasks : List Task) (td : List (String × CPMTaskData))
    (esKey : String → ℚ) (taskId : String) : List Task :=
  sortByCmp (fun a b => esKey a.id - esKey b.id)
    (tasks.filter (fun t => decide (taskId ∈ t.dependencies) && tdIsCritical td t.id))

/-- The recursive DFS `traverse` (lines 352-370). Each call either stops or
appends a fresh id to `visited` before recursing, so call depth is bounded by
the number of distinct ids; fuel `tasks.length + 1` is never exhausted when
`visited` starts empty. -/
def traverse (tasks : List Task) (td : List (String × CPMTaskData)) (esKey : String → ℚ) :
    ℕ → List String × List String → String → List String × List String
  | 0, vp, _ => vp
  | fuel + 1, vp, taskId =>
    if taskId ∈ vp.1 then vp
    else if tdIsCritical td taskId = false then vp
    else
      let vp' := (vp.1 ++ [taskId], vp.2 ++ [taskId])
      if tasks.any (fun t => t.id == taskId) then
        (criticalSuccessorsOf tasks td esKey taskId).foldl
          (fun vp succ => traverse tasks td esKey fuel vp succ.id) vp'
      else vp'

/-- The critical-path builder, abstracted over the start-time key used for
root and sibling ordering. -/
def buildPathWith (tasks : List Task) (td : List (String × CPMTaskData))
    (esKey : String → ℚ) : List String :=
  let criticalTasks := tasks.filter (fun t => tdIsCritical td t.id)
  if criticalTasks.isEmpty then []
  else
    let startingTasks := criticalTasks.filter (fun t =>
      !((predecessorsOf tasks t.id).any (fun p => tdIsCritical td p)))
    ((sortByCmp (fun a b => esKey a.id - esKey b.id) startingTasks).foldl
      (fun vp t => traverse tasks td esKey (tasks.length + 1) vp t.id) ([], [])).2

/-- `buildCriticalPath` (lines 329-378): the source orders roots and siblings
by the `taskData` `es` field (`taskData.get(..)?.es || 0`), which holds the
serial-schedule start. -/
def buildCriticalPath (tasks : List Task) (td : List (String × CPMTaskData)) : List String :=
  buildPathWith tasks td (tdEs td)

/-- `CPMResult` (lines 14-20). -/
structure CPMResult where
  taskData : List (String × CPMTaskData)
  criticalPath : List String
  projectDuration : ℚ
  projectStartDate : ℚ
  totalManHours : ℚ
deriving DecidableEq, Repr

/-- `calculateCriticalPath` (lines 175-326). The `now` argument models the
wall-clock `new Date()` read in the empty-input branch (line 181); no other
part of the computation reads it. -/
def calculateCriticalPath (now : ℚ) (tasks : List Task) : CPMResult :=
  match tasks with
  | [] =>
    { taskData := []
      criticalPath := []
      projectDuration := 0
      projectStartDate := now
      totalManHours := 0 }
  | t0 :: _ =>
    let projectStartDate := projectStartDateOf t0 tasks
    let sortedIds := topologicalSort tasks
    let logicalForward := forwardPass tasks sortedIds projectStartDate
    let logicalDuration := logicalDurationOf logicalForward
    let logicalBackward := backwardPass tasks sortedIds logicalDuration
    let finalState := serialSchedule tasks logicalBackward projectStartDate
    let taskData := buildTaskData tasks sortedIds logicalForward logicalBackward finalState.sched
    { taskData := taskData
      criticalPath := buildCriticalPath tasks taskData
      projectDuration := finalState.time
      projectStartDate := projectStartDate
      totalManHours := tasks.foldl (fun s t => s + t.estimatedDuration) 0 }

/-- The condition under which line 198 emits the cycle diagnostic
(`console.warn`): the topological order does not cover the task list. -/
def cycleWarning (tasks : List Task) : Bool :=
  (topologicalSort tasks).length != tasks.length

/-- A nonempty set of ids, each an existing task having at least one dependency
inside the set. The vertex set of any dependency cycle is such a set, and
conversely such a set always contains a cycle, so its existence characterises
"the task set contains a dependency cycle". -/
def IsCycleSet (tasks : List Task) (c : List String) : Prop :=
  c ≠ [] ∧ ∀ x ∈ c, ∃ t ∈ tasks, t.id = x ∧ ∃ p ∈ c, p ∈ t.dependencies

/-- The task set contains a dependency cycle. -/
def HasCycle (tasks : List Task) : Prop := ∃ c, IsCycleSet tasks c

/-- Logical early start of an id under a forward map, default 0. -/
def logEs (fwd : List (String × EsEf)) (id : String) : ℚ :=
  ((mapGet? id fwd).map (·.es)).getD 0

/-- Logical late start of an id under a backward map, default 0 — the first
comparator key of lines 244-245. -/
def lsOf (bwd : List (String × LsLf)) (id : String) : ℚ :=
  ((mapGet? id bwd).map (·.ls)).getD 0

/-- Duration of an id in the task map, default 0 — the second comparator key
of lines 248-249. -/
def durOf (tasks : List Task) (id : String) : ℚ :=
  ((findTask tasks id).map (·.estimatedDuration)).getD 0

/-- The critical-path builder as claim C8 words it: the same DFS, but with
roots and siblings ordered by ascending *logical* earlyStart. -/
def claimedCriticalPath (tasks : List Task) (td : List (String × CPMTaskData))
    (fwd : List (String × EsEf)) : List String :=
  buildPathWith tasks td (logEs fwd)

/-! Named projections of the intermediate values of `calculateCriticalPath`
(the source's local variables), so that theorems can speak about them. -/

/-- The `projectStartDate` local (lines 188-191); 0 for the empty list, whose
branch never computes it. -/
def pipelineAnchor (tasks : List Task) : ℚ :=
  match tasks with
  | [] => 0
  | t0 :: _ => projectStartDateOf t0 tasks

/-- The `logicalForward` local (line 203). -/
def pipelineFwd (tasks : List Task) : List (String × EsEf) :=
  forwardPass tasks (topologicalSort tasks) (pipelineAnchor tasks)

/-- The `logicalBackward` local (line 214). -/
def pipelineBwd (tasks : List Task) : List (String × LsLf) :=
  backwardPass tasks (topologicalSort tasks) (logicalDurationOf (pipelineFwd tasks))

/-- The final state of the scheduling loop (lines 216-279). -/
def pipelineSched (tasks : List Task) : SchedState :=
  serialSchedule tasks (pipelineBwd tasks) (pipelineAnchor tasks)

/-- The `taskData` local (lines 284-311). -/
def pipelineTaskData (tasks : List Task) : List (String × CPMTaskData) :=
  buildTaskData tasks (topologicalSort tasks) (pipelineFwd tasks) (pipelineBwd tasks)
    (pipelineSched tasks).sched

/-- In-degree of a task in `topologicalSort` (lines 60-66): the number of its
dependency occurrences that reference an existing task. -/
def validCount (tasks : List Task) (t : Task) : ℕ :=
  ((predecessorsOf tasks t.id).filter (fun p => tasks.any (fun u => u.id == p))).length

/-- How many entries of the list `r` occur in `t`'s dependency list (the number
of times `t`'s in-degree has been decremented after the ids in `r` were
dequeued, matching the membership test of line 81). -/
def matchCount (r : List String) (t : Task) : ℕ :=
  (r.filter (fun x => decide (x ∈ t.dependencies))).length

/-- Invariant of the Kahn loop, parameterised by a set `c` of ids to be
excluded (instantiated with a closed cycle set, or `[]` when unused):
the emitted-plus-queued ids are distinct existing task ids, the degree map
holds exactly the initial valid in-degree minus one per emitted id occurring
among the task's dependencies, ids emitted or queued have no remaining valid
dependencies, and members of `c` never appear. -/
def TopoInv (tasks : List Task) (c queue result : List String) (deg : List (String × Int)) : Prop :=
  (result ++ queue).Nodup ∧
  (∀ x ∈ result ++ queue, ∃ t ∈ tasks, t.id = x) ∧
  (∀ t ∈ tasks, mapGet? t.id deg =
    some ((validCount tasks t : Int) - (matchCount result t : Int))) ∧
  (∀ t ∈ tasks, t.id ∈ result ++ queue → validCount tasks t ≤ matchCount result t) ∧
  (∀ x ∈ c, x ∉ result ++ queue)

/-- Keys of the serial schedule map, in insertion order. -/
def schedKeys (st : SchedState) : List String := st.sched.map (fun e => e.1)

/-- Invariant of the serial-scheduling loop (lines 216-279): scheduled keys
and queued ids are pairwise-distinct existing task ids; each degree entry
counts the task's dependency occurrences not yet scheduled; a queued or
scheduled task has every dependency scheduled; every scheduled finish is at or
before the clock; each schedule entry starts at or after every earlier entry's
finish; and a scheduled task starts at or after the finish of each of its
scheduled dependencies. -/
def SchedInv (tasks : List Task) (st : SchedState) : Prop :=
  (schedKeys st ++ st.queue).Nodup ∧
  (∀ x ∈ schedKeys st ++ st.queue, ∃ t ∈ tasks, t.id = x) ∧
  (∀ t ∈ tasks, mapGet? t.id st.deg =
    some (((t.dependencies.filter (fun d => decide (d ∉ schedKeys st))).length : Int))) ∧
  (∀ t ∈ tasks, (t.id ∈ st.queue ∨ t.id ∈ schedKeys st) →
    ∀ d ∈ t.dependencies, d ∈ schedKeys st) ∧
  (∀ e ∈ st.sched, e.2.ef ≤ st.time) ∧
  st.sched.Pairwise (fun a b => a.2.ef ≤ b.2.es) ∧
  (∀ t ∈ tasks, ∀ e, mapGet? t.id st.sched = some e →
    ∀ d ∈ t.dependencies, ∀ ep, mapGet? d st.sched = some ep → ep.ef ≤ e.es)

end PersonalScheduler

namespace PersonalScheduler

set_option allowUnsafeReducibility true
attribute [local semireducible] Rat.add Rat.mul Rat.sub Rat.inv Rat.normalize
set_option maxRecDepth 40000

/-! Basic lemmas about the JS-`Map` model. -/

theorem mapGet?_cons {α : Type} (k k' : String) (v : α) (l : List (String × α)) :
    mapGet? k ((k', v) :: l) = if k' = k then some v else mapGet? k l := by
  by_cases h : k' = k <;> simp [mapGet?, List.find?_cons, h]

theorem mapGet?_set {α : Type} (k k' : String) (v : α) (l : List (String × α)) :
    mapGet? k (mapSet k' v l) = if k' = k then some v else mapGet? k l := by
  induction l with
  | nil => by_cases h : k' = k <;> simp [mapSet, mapGet?_cons, h]
  | cons p l ih =>
    obtain ⟨a, b⟩ := p
    show mapGet? k (if a = k' then (k', v) :: l else (a, b) :: mapSet k' v l) = _
    by_cases ha : a = k'
    · rw [if_pos ha]
      subst ha
      simp only [mapGet?_cons]
      by_cases h : a = k <;> simp [h]
    · rw [if_neg ha]
      simp only [mapGet?_cons, ih]
      by_cases h : k' = k
      · subst h
        simp [ha]
      · simp [h]

/-- Fold preservation of an invariant. -/
theorem foldl_preserves {α β : Type} (P : β → Prop) (f : β → α → β)
    (h : ∀ b a, P b → P (f b a)) : ∀ (l : List α) (b : β), P b → P (l.foldl f b)
  | [], _, hb => hb
  | a :: l, b, hb => foldl_preserves P f h l (f b a) (h b a hb)

/-- Characterisation of the entries of the combine fold (lines 286-311): an
entry exists only when the task and all three intermediate maps have the id,
and its fields are the serial times (for `es`/`ef`/`ls`/`lf`) together with
the logical float and criticality. -/
theorem buildTaskData_entry (tasks : List Task) (sortedIds : List String)
    (fwd : List (String × EsEf)) (bwd : List (String × LsLf)) (sched : List (String × EsEf))
    (id : String) (d : CPMTaskData)
    (h : mapGet? id (buildTaskData tasks sortedIds fwd bwd sched) = some d) :
    ∃ t lF lB s, findTask tasks id = some t ∧ mapGet? id fwd = some lF ∧
      mapGet? id bwd = some lB ∧ mapGet? id sched = some s ∧
      d = ⟨id, t.estimatedDuration, s.es, s.ef, s.es, s.ef, lB.ls - lF.es,
        decide (|lB.ls - lF.es| < 1/1000)⟩ := by
  have main :
      ∀ (l : List String) (acc : List (String × CPMTaskData)),
        (∀ id d, mapGet? id acc = some d →
          ∃ t lF lB s, findTask tasks id = some t ∧ mapGet? id fwd = some lF ∧
            mapGet? id bwd = some lB ∧ mapGet? id sched = some s ∧
            d = ⟨id, t.estimatedDuration, s.es, s.ef, s.es, s.ef, lB.ls - lF.es,
              decide (|lB.ls - lF.es| < 1/1000)⟩) →
        (∀ id d, mapGet? id (l.foldl (combineStep tasks fwd bwd sched) acc) = some d →
          ∃ t lF lB s, findTask tasks id = some t ∧ mapGet? id fwd = some lF ∧
            mapGet? id bwd = some lB ∧ mapGet? id sched = some s ∧
            d = ⟨id, t.estimatedDuration, s.es, s.ef, s.es, s.ef, lB.ls - lF.es,
              decide (|lB.ls - lF.es| < 1/1000)⟩) := by
    intro l
    refine foldl_preserves _ _ ?_ l
    intro acc x hacc id d hd
    unfold combineStep at hd
    split at hd
    next t lF lB s ht hF hB hs =>
      rw [mapGet?_set] at hd
      by_cases hx : x = id
      · subst hx
        rw [if_pos rfl] at hd
        obtain rfl := (Option.some.inj hd).symm
        exact ⟨t, lF, lB, s, ht, hF, hB, hs, rfl⟩
      · rw [if_neg hx] at hd
        exact hacc id d hd
    next =>
      exact hacc id d hd
  exact main sortedIds [] (by intro id d h; simp [mapGet?] at h) id d h

/-- The `taskData` field of the result is the combine fold of the pipeline. -/
theorem calculate_taskData (now : ℚ) (tasks : List Task) :
    (calculateCriticalPath now tasks).taskData = pipelineTaskData tasks := by
  cases tasks <;> rfl

/-- The `criticalPath` field of the result. -/
theorem calculate_criticalPath (now : ℚ) (tasks : List Task) :
    (calculateCriticalPath now tasks).criticalPath =
      buildCriticalPath tasks (pipelineTaskData tasks) := by
  cases tasks <;> rfl

/-- The `projectDuration` field of the result. -/
theorem calculate_projectDuration (now : ℚ) (tasks : List Task) :
    (calculateCriticalPath now tasks).projectDuration = (pipelineSched tasks).time := by
  cases tasks <;> rfl

/-- Claim C1 (code bug), evaluated at the failing input: a single task `X`
whose only dependency `ghost` is dangling. The topological sort and both
logical passes ignore the dangling id (removing it changes none of them), but
the serial scheduler counts it in its in-degree (line 225 uses the raw
dependency-list length), so `X` is never scheduled and — against the claim —
receives no `taskData` entry; removing the dangling id restores the entry. -/
theorem dangling_dependency_not_ignored_by_scheduler :
    (calculateCriticalPath 0 [⟨"X", 1, 0, ["ghost"]⟩]).taskData = [] ∧
    (calculateCriticalPath 0 [⟨"X", 1, 0, []⟩]).taskData =
      [("X", ⟨"X", 1, 0, 1, 0, 1, 0, true⟩)] ∧
    topologicalSort [⟨"X", 1, 0, ["ghost"]⟩] = topologicalSort [⟨"X", 1, 0, []⟩] ∧
    pipelineFwd [⟨"X", 1, 0, ["ghost"]⟩] = pipelineFwd [⟨"X", 1, 0, []⟩] ∧
    pipelineBwd [⟨"X", 1, 0, ["ghost"]⟩] = pipelineBwd [⟨"X", 1, 0, []⟩] ∧
    (pipelineSched [⟨"X", 1, 0, ["ghost"]⟩]).sched = [] := by decide

/-- Claim C9, counterexample: on the empty task set the result embeds the
wall-clock instant read by `new Date()` (line 181) as `projectStartDate`, so
two invocations at different instants yield different `CPMResult`s. -/
theorem empty_input_not_deterministic_counterexample :
    calculateCriticalPath 0 [] ≠ calculateCriticalPath 1 [] := by decide

/-- Claim C9, amended: for every nonempty task set the computation is a pure
function of the task list alone (the wall-clock argument is never read), and
for the empty task set every field except `projectStartDate` — which is the
wall-clock reading — is fixed. -/
theorem deterministic_on_nonempty_input :
    (∀ (now now' : ℚ) (tasks : List Task), tasks ≠ [] →
      calculateCriticalPath now tasks = calculateCriticalPath now' tasks) ∧
    ∀ now : ℚ, (calculateCriticalPath now []).taskData = [] ∧
      (calculateCriticalPath now []).criticalPath = [] ∧
      (calculateCriticalPath now []).projectDuration = 0 ∧
      (calculateCriticalPath now []).totalManHours = 0 ∧
      (calculateCriticalPath now []).projectStartDate = now := by
  constructor
  · intro now now' tasks h
    cases tasks with
    | nil => exact absurd rfl h
    | cons t0 rest => rfl
  · intro now
    exact ⟨rfl, rfl, rfl, rfl, rfl⟩

/-- Witness for the amended C9 at a concrete input. -/
theorem deterministic_on_nonempty_input_witness :
    calculateCriticalPath 5 [⟨"X", 1, 0, []⟩] = calculateCriticalPath 7 [⟨"X", 1, 0, []⟩] :=
  deterministic_on_nonempty_input.1 5 7 [⟨"X", 1, 0, []⟩] (by decide)

/-- Claim C2, counterexample: two independent tasks of 3h and 2h. The stored
record of `T2` is the serial one (`es = 3`), while the logical forward pass
gives `earlyStart 0` and the backward pass `lateStart 1`; the stored `float`
is 1 yet the record's `ls - es` is `3 - 3 = 0`, so the stored fields are not
the logical pass values and `float` is not the record's `ls - es`. -/
theorem taskData_stores_serial_not_logical_counterexample :
    mapGet? "T2" (calculateCriticalPath 0 [⟨"T3", 3, 0, []⟩, ⟨"T2", 2, 0, []⟩]).taskData =
      some ⟨"T2", 2, 3, 5, 3, 5, 1, false⟩ ∧
    mapGet? "T2" (pipelineFwd [⟨"T3", 3, 0, []⟩, ⟨"T2", 2, 0, []⟩]) = some ⟨0, 2⟩ ∧
    mapGet? "T2" (pipelineBwd [⟨"T3", 3, 0, []⟩, ⟨"T2", 2, 0, []⟩]) = some ⟨1, 3⟩ ∧
    (3 : ℚ) ≠ 0 ∧ (1 : ℚ) ≠ 3 - 3 := by decide

/-- Claim C2, amended: each stored entry's `es`/`ef`/`ls`/`lf` are the serial
schedule times (with `ls = es`, `lf = ef`), its `float` is the logical
backward `lateStart` minus the logical forward `earlyStart` of the same id,
and `isCritical` holds exactly when `|float| < 1e-3`. -/
theorem taskData_fields_serial_times_logical_float :
    ∀ (now : ℚ) (tasks : List Task) (id : String) (d : CPMTaskData),
      mapGet? id (calculateCriticalPath now tasks).taskData = some d →
      ∃ t lF lB s, findTask tasks id = some t ∧
        mapGet? id (pipelineFwd tasks) = some lF ∧
        mapGet? id (pipelineBwd tasks) = some lB ∧
        mapGet? id (pipelineSched tasks).sched = some s ∧
        d.es = s.es ∧ d.ef = s.ef ∧ d.ls = s.es ∧ d.lf = s.ef ∧
        d.float = lB.ls - lF.es ∧ (d.isCritical = true ↔ |d.float| < 1/1000) ∧
        d.duration = t.estimatedDuration := by
  intro now tasks id d h
  rw [calculate_taskData] at h
  obtain ⟨t, lF, lB, s, h1, h2, h3, h4, rfl⟩ :=
    buildTaskData_entry tasks (topologicalSort tasks) (pipelineFwd tasks)
      (pipelineBwd tasks) (pipelineSched tasks).sched id d h
  exact ⟨t, lF, lB, s, h1, h2, h3, h4, rfl, rfl, rfl, rfl, rfl, by simp, rfl⟩

/-- Witness for the amended C2 at a concrete input. -/
theorem taskData_fields_serial_times_logical_float_witness :
    ∃ t lF lB s, findTask [⟨"T3", (3:ℚ), 0, []⟩, ⟨"T2", 2, 0, []⟩] "T2" = some t ∧
      mapGet? "T2" (pipelineFwd [⟨"T3", 3, 0, []⟩, ⟨"T2", 2, 0, []⟩]) = some lF ∧
      mapGet? "T2" (pipelineBwd [⟨"T3", 3, 0, []⟩, ⟨"T2", 2, 0, []⟩]) = some lB ∧
      mapGet? "T2" (pipelineSched [⟨"T3", 3, 0, []⟩, ⟨"T2", 2, 0, []⟩]).sched = some s ∧
      (⟨"T2", 2, 3, 5, 3, 5, 1, false⟩ : CPMTaskData).es = s.es ∧
      (⟨"T2", 2, 3, 5, 3, 5, 1, false⟩ : CPMTaskData).ef = s.ef ∧
      (⟨"T2", 2, 3, 5, 3, 5, 1, false⟩ : CPMTaskData).ls = s.es ∧
      (⟨"T2", 2, 3, 5, 3, 5, 1, false⟩ : CPMTaskData).lf = s.ef ∧
      (⟨"T2", 2, 3, 5, 3, 5, 1, false⟩ : CPMTaskData).float = lB.ls - lF.es ∧
      ((⟨"T2", 2, 3, 5, 3, 5, 1, false⟩ : CPMTaskData).isCritical = true ↔
        |(⟨"T2", 2, 3, 5, 3, 5, 1, false⟩ : CPMTaskData).float| < 1/1000) ∧
      (⟨"T2", 2, 3, 5, 3, 5, 1, false⟩ : CPMTaskData).duration = t.estimatedDuration :=
  taskData_fields_serial_times_logical_float 0 [⟨"T3", 3, 0, []⟩, ⟨"T2", 2, 0, []⟩]
    "T2" ⟨"T2", 2, 3, 5, 3, 5, 1, false⟩ (by decide)

/-- Claim C10: every reported entry satisfies `ls = es` and `lf = ef` (both
pairs hold the serial times), while the `float` field can still be nonzero —
witnessed by the 2h task of the two-task example, whose entry has `float = 1`
but `ls - es = 0` — so `float` is not derivable from the entry's own
`ls` and `es`. -/
theorem ls_eq_es_and_lf_eq_ef_with_independent_float :
    (∀ (now : ℚ) (tasks : List Task) (id : String) (d : CPMTaskData),
      mapGet? id (calculateCriticalPath now tasks).taskData = some d →
      d.ls = d.es ∧ d.lf = d.ef) ∧
    ∃ d : CPMTaskData,
      mapGet? "T2" (calculateCriticalPath 0 [⟨"T3", 3, 0, []⟩, ⟨"T2", 2, 0, []⟩]).taskData =
        some d ∧ d.float = 1 ∧ d.ls - d.es = 0 := by
  constructor
  · intro now tasks id d h
    rw [calculate_taskData] at h
    obtain ⟨t, lF, lB, s, -, -, -, -, rfl⟩ :=
      buildTaskData_entry tasks (topologicalSort tasks) (pipelineFwd tasks)
        (pipelineBwd tasks) (pipelineSched tasks).sched id d h
    exact ⟨rfl, rfl⟩
  · exact ⟨⟨"T2", 2, 3, 5, 3, 5, 1, false⟩, by decide, by decide, by decide⟩

/-- Witness for C10's universally quantified part at a concrete input. -/
theorem ls_eq_es_and_lf_eq_ef_with_independent_float_witness :
    (⟨"T2", (2:ℚ), 3, 5, 3, 5, 1, false⟩ : CPMTaskData).ls =
      (⟨"T2", (2:ℚ), 3, 5, 3, 5, 1, false⟩ : CPMTaskData).es ∧
    (⟨"T2", (2:ℚ), 3, 5, 3, 5, 1, false⟩ : CPMTaskData).lf =
      (⟨"T2", (2:ℚ), 3, 5, 3, 5, 1, false⟩ : CPMTaskData).ef :=
  ls_eq_es_and_lf_eq_ef_with_independent_float.1 0
    [⟨"T3", 3, 0, []⟩, ⟨"T2", 2, 0, []⟩] "T2" ⟨"T2", 2, 3, 5, 3, 5, 1, false⟩ (by decide)

/-! Lemmas for the forward- and backward-pass characterisation (C3, C6). -/

theorem fwdStep_get_ne (tasks : List Task) (a : ℚ) (acc : List (String × EsEf))
    (x y : String) (hxy : y ≠ x) : mapGet? x (fwdStep tasks a acc y) = mapGet? x acc := by
  unfold fwdStep
  split
  · rfl
  · rw [mapGet?_set, if_neg hxy]

theorem fwd_foldl_get_notMem (tasks : List Task) (a : ℚ) :
    ∀ (l : List String) (acc : List (String × EsEf)) (x : String), x ∉ l →
      mapGet? x (l.foldl (fwdStep tasks a) acc) = mapGet? x acc := by
  intro l
  induction l with
  | nil => intro acc x _; rfl
  | cons y l ih =>
    intro acc x h
    rw [List.foldl_cons, ih _ x (fun hm => h (List.mem_cons_of_mem _ hm)),
      fwdStep_get_ne tasks a acc x y (fun he => h (he ▸ List.mem_cons_self _ _))]

theorem fwdStep_isSome (tasks : List Task) (a : ℚ) (acc : List (String × EsEf))
    (y x : String) :
    (mapGet? x (fwdStep tasks a acc y)).isSome = true ↔
      (x = y ∧ (findTask tasks y).isSome = true) ∨ (mapGet? x acc).isSome = true := by
  unfold fwdStep
  split
  next hf =>
    rw [hf]
    simp
  next task hf =>
    rw [hf, mapGet?_set]
    by_cases hxy : y = x
    · subst hxy
      simp
    · rw [if_neg hxy]
      constructor
      · exact Or.inr
      · rintro (⟨rfl, -⟩ | hs)
        · exact absurd rfl hxy
        · exact hs

theorem fwd_foldl_isSome (tasks : List Task) (a : ℚ) :
    ∀ (l : List String) (acc : List (String × EsEf)) (x : String),
      (mapGet? x (l.foldl (fwdStep tasks a) acc)).isSome = true ↔
        (x ∈ l ∧ (findTask tasks x).isSome = true) ∨ (mapGet? x acc).isSome = true := by
  intro l
  induction l with
  | nil => intro acc x; simp
  | cons y l ih =>
    intro acc x
    rw [List.foldl_cons, ih, fwdStep_isSome]
    constructor
    · rintro (⟨hm, hs⟩ | (⟨rfl, hs⟩ | hs))
      · exact Or.inl ⟨List.mem_cons_of_mem _ hm, hs⟩
      · exact Or.inl ⟨List.mem_cons_self _ _, hs⟩
      · exact Or.inr hs
    · rintro (⟨hm, hs⟩ | hs)
      · rcases List.mem_cons.mp hm with rfl | hm'
        · exact Or.inr (Or.inl ⟨rfl, hs⟩)
        · exact Or.inl ⟨hm', hs⟩
      · exact Or.inr (Or.inr hs)

theorem bwdStep_get_ne (tasks : List Task) (dur : ℚ) (acc : List (String × LsLf))
    (x y : String) (hxy : y ≠ x) : mapGet? x (bwdStep tasks dur acc y) = mapGet? x acc := by
  unfold bwdStep
  split
  · rfl
  · rw [mapGet?_set, if_neg hxy]

theorem bwd_foldl_get_notMem (tasks : List Task) (dur : ℚ) :
    ∀ (l : List String) (acc : List (String × LsLf)) (x : String), x ∉ l →
      mapGet? x (l.foldl (bwdStep tasks dur) acc) = mapGet? x acc := by
  intro l
  induction l with
  | nil => intro acc x _; rfl
  | cons y l ih =>
    intro acc x h
    rw [List.foldl_cons, ih _ x (fun hm => h (List.mem_cons_of_mem _ hm)),
      bwdStep_get_ne tasks dur acc x y (fun he => h (he ▸ List.mem_cons_self _ _))]

theorem bwdStep_isSome (tasks : List Task) (dur : ℚ) (acc : List (String × LsLf))
    (y x : String) :
    (mapGet? x (bwdStep tasks dur acc y)).isSome = true ↔
      (x = y ∧ (findTask tasks y).isSome = true) ∨ (mapGet? x acc).isSome = true := by
  unfold bwdStep
  split
  next hf =>
    rw [hf]
    simp
  next task hf =>
    rw [hf, mapGet?_set]
    by_cases hxy : y = x
    · subst hxy
      simp
    · rw [if_neg hxy]
      constructor
      · exact Or.inr
      · rintro (⟨rfl, -⟩ | hs)
        · exact absurd rfl hxy
        · exact hs

theorem bwd_foldl_isSome (tasks : List Task) (dur : ℚ) :
    ∀ (l : List String) (acc : List (String × LsLf)) (x : String),
      (mapGet? x (l.foldl (bwdStep tasks dur) acc)).isSome = true ↔
        (x ∈ l ∧ (findTask tasks x).isSome = true) ∨ (mapGet? x acc).isSome = true := by
  intro l
  induction l with
  | nil => intro acc x; simp
  | cons y l ih =>
    intro acc x
    rw [List.foldl_cons, ih, bwdStep_isSome]
    constructor
    · rintro (⟨hm, hs⟩ | (⟨rfl, hs⟩ | hs))
      · exact Or.inl ⟨List.mem_cons_of_mem _ hm, hs⟩
      · exact Or.inl ⟨List.mem_cons_self _ _, hs⟩
      · exact Or.inr hs
    · rintro (⟨hm, hs⟩ | hs)
      · rcases List.mem_cons.mp hm with rfl | hm'
        · exact Or.inr (Or.inl ⟨rfl, hs⟩)
        · exact Or.inl ⟨hm', hs⟩
      · exact Or.inr (Or.inr hs)

theorem if_gt_eq_max (a b : ℚ) : (if a > b then a else b) = max b a := by
  by_cases h : a > b
  · rw [if_pos h, max_eq_right h.le]
  · rw [if_neg h, max_eq_left (not_lt.mp h)]

theorem fwdStep_get_self (tasks : List Task) (a : ℚ) (acc : List (String × EsEf))
    (x : String) (t : Task) (ht : findTask tasks x = some t) :
    mapGet? x (fwdStep tasks a acc x) = some
      ⟨max (maxOrZero (((predecessorsOf tasks x).filter
            (fun p => (mapGet? p acc).isSome)).map
            (fun p => (((mapGet? p acc).map EsEf.ef).getD 0))))
          (getHoursDifference a t.startDate),
        max (maxOrZero (((predecessorsOf tasks x).filter
            (fun p => (mapGet? p acc).isSome)).map
            (fun p => (((mapGet? p acc).map EsEf.ef).getD 0))))
          (getHoursDifference a t.startDate) + t.estimatedDuration⟩ := by
  simp only [fwdStep, ht]
  rw [mapGet?_set, if_pos rfl]
  simp only [if_gt_eq_max]

theorem bwdStep_get_self (tasks : List Task) (dur : ℚ) (acc : List (String × LsLf))
    (x : String) (t : Task) (ht : findTask tasks x = some t) :
    mapGet? x (bwdStep tasks dur acc x) = some
      ⟨minOrBase dur (((successorsOf tasks x).filter
            (fun s => (mapGet? s acc).isSome)).map
            (fun s => (((mapGet? s acc).map LsLf.ls).getD 0))) - t.estimatedDuration,
        minOrBase dur (((successorsOf tasks x).filter
            (fun s => (mapGet? s acc).isSome)).map
            (fun s => (((mapGet? s acc).map LsLf.ls).getD 0)))⟩ := by
  simp only [bwdStep, ht]
  rw [mapGet?_set, if_pos rfl]

/-- Core of the pass characterisation: the entry of each processed id is
given by the source recurrences over the already-processed neighbours. -/
theorem pass_recurrences_core :
    (∀ (tasks : List Task) (sorted : List String) (anchor D : ℚ), sorted.Nodup →
      ∀ (i : ℕ) (hi : i < sorted.length) (t : Task),
        findTask tasks (sorted.get ⟨i, hi⟩) = some t →
        mapGet? (sorted.get ⟨i, hi⟩) (forwardPass tasks sorted anchor) = some
          ⟨max (maxOrZero (((predecessorsOf tasks (sorted.get ⟨i, hi⟩)).filter
                (fun p => decide (p ∈ sorted.take i) && (findTask tasks p).isSome)).map
                (fun p => (((mapGet? p (forwardPass tasks sorted anchor)).map EsEf.ef).getD 0))))
              (getHoursDifference anchor t.startDate),
            max (maxOrZero (((predecessorsOf tasks (sorted.get ⟨i, hi⟩)).filter
                (fun p => decide (p ∈ sorted.take i) && (findTask tasks p).isSome)).map
                (fun p => (((mapGet? p (forwardPass tasks sorted anchor)).map EsEf.ef).getD 0))))
              (getHoursDifference anchor t.startDate) + t.estimatedDuration⟩ ∧
        mapGet? (sorted.get ⟨i, hi⟩) (backwardPass tasks sorted D) = some
          ⟨minOrBase D (((successorsOf tasks (sorted.get ⟨i, hi⟩)).filter
              (fun s => decide (s ∈ sorted.drop (i+1)) && (findTask tasks s).isSome)).map
              (fun s => (((mapGet? s (backwardPass tasks sorted D)).map LsLf.ls).getD 0)))
              - t.estimatedDuration,
            minOrBase D (((successorsOf tasks (sorted.get ⟨i, hi⟩)).filter
              (fun s => decide (s ∈ sorted.drop (i+1)) && (findTask tasks s).isSome)).map
              (fun s => (((mapGet? s (backwardPass tasks sorted D)).map LsLf.ls).getD 0)))⟩) := by
  intro tasks sorted anchor D hnd i hi t ht
  have hget_eq : sorted.get ⟨i, hi⟩ = sorted[i] := rfl
  set x := sorted.get ⟨i, hi⟩ with hxdef
  have hdecomp : sorted = sorted.take i ++ x :: sorted.drop (i+1) := by
    conv_lhs => rw [← List.take_append_drop i sorted]
    rw [List.drop_eq_getElem_cons hi, ← hget_eq]
  have hnd' : (sorted.take i ++ x :: sorted.drop (i+1)).Nodup := hdecomp ▸ hnd
  obtain ⟨hndTake, hndCons, hdisj⟩ := List.nodup_append.mp hnd'
  have hx_drop : x ∉ sorted.drop (i+1) := (List.nodup_cons.mp hndCons).1
  have hx_take : x ∉ sorted.take i := fun hm => hdisj hm (List.mem_cons_self _ _)
  have hmem_take_not : ∀ p ∈ sorted.take i, p ∉ x :: sorted.drop (i+1) := fun p hp => hdisj hp
  constructor
  · -- forward pass
    set S := (sorted.take i).foldl (fwdStep tasks anchor) [] with hSdef
    have hfwd_eq : forwardPass tasks sorted anchor
        = (sorted.drop (i+1)).foldl (fwdStep tasks anchor) (fwdStep tasks anchor S x) := by
      unfold forwardPass
      conv_lhs => rw [hdecomp]
      rw [List.foldl_append, List.foldl_cons]
    have hfilter : (predecessorsOf tasks x).filter (fun p => (mapGet? p S).isSome)
        = (predecessorsOf tasks x).filter
            (fun p => decide (p ∈ sorted.take i) && (findTask tasks p).isSome) := by
      apply List.filter_congr
      intro p _
      have hiff := fwd_foldl_isSome tasks anchor (sorted.take i) [] p
      have hnone : (mapGet? p ([] : List (String × EsEf))).isSome = false := rfl
      rw [hnone] at hiff
      simp only [Bool.false_eq_true, or_false] at hiff
      by_cases hb : (mapGet? p S).isSome = true
      · rw [hb]
        symm
        rw [Bool.and_eq_true, decide_eq_true_iff]
        exact ⟨(hiff.mp hb).1, (hiff.mp hb).2⟩
      · rw [Bool.not_eq_true] at hb
        rw [hb]
        symm
        rw [Bool.eq_false_iff]
        intro hcontra
        rw [Bool.and_eq_true, decide_eq_true_iff] at hcontra
        have := hiff.mpr ⟨hcontra.1, hcontra.2⟩
        rw [hb] at this
        cases this
    have hvals : ((predecessorsOf tasks x).filter
          (fun p => decide (p ∈ sorted.take i) && (findTask tasks p).isSome)).map
          (fun p => (((mapGet? p S).map EsEf.ef).getD 0))
        = ((predecessorsOf tasks x).filter
          (fun p => decide (p ∈ sorted.take i) && (findTask tasks p).isSome)).map
          (fun p => (((mapGet? p (forwardPass tasks sorted anchor)).map EsEf.ef).getD 0)) := by
      apply List.map_congr_left
      intro p hp
      have hdec := (List.mem_filter.mp hp).2
      rw [Bool.and_eq_true, decide_eq_true_iff] at hdec
      have hp_take : p ∈ sorted.take i := hdec.1
      have hp_not : p ∉ sorted.drop (i+1) := fun hm =>
        hmem_take_not p hp_take (List.mem_cons_of_mem _ hm)
      have hp_ne : x ≠ p := fun he => hx_take (he ▸ hp_take)
      have : mapGet? p (forwardPass tasks sorted anchor) = mapGet? p S := by
        rw [hfwd_eq, fwd_foldl_get_notMem tasks anchor _ _ p hp_not,
          fwdStep_get_ne tasks anchor S p x hp_ne]
      rw [this]
    have hmain : mapGet? x (forwardPass tasks sorted anchor)
        = mapGet? x (fwdStep tasks anchor S x) := by
      rw [hfwd_eq, fwd_foldl_get_notMem tasks anchor _ _ x hx_drop]
    rw [hmain, fwdStep_get_self tasks anchor S x t ht, hfilter, hvals]
  · -- backward pass
    set S := ((sorted.drop (i+1)).reverse).foldl (bwdStep tasks D) [] with hSdef
    have hrev : sorted.reverse
        = (sorted.drop (i+1)).reverse ++ x :: (sorted.take i).reverse := by
      conv_lhs => rw [hdecomp]
      rw [List.reverse_append, List.reverse_cons, List.append_assoc, List.singleton_append]
    have hbwd_eq : backwardPass tasks sorted D
        = ((sorted.take i).reverse).foldl (bwdStep tasks D) (bwdStep tasks D S x) := by
      unfold backwardPass
      rw [hrev, List.foldl_append, List.foldl_cons]
    have hfilter : (successorsOf tasks x).filter (fun s => (mapGet? s S).isSome)
        = (successorsOf tasks x).filter
            (fun s => decide (s ∈ sorted.drop (i+1)) && (findTask tasks s).isSome) := by
      apply List.filter_congr
      intro s _
      have hiff := bwd_foldl_isSome tasks D ((sorted.drop (i+1)).reverse) [] s
      have hnone : (mapGet? s ([] : List (String × LsLf))).isSome = false := rfl
      rw [hnone] at hiff
      simp only [Bool.false_eq_true, or_false, List.mem_reverse] at hiff
      by_cases hb : (mapGet? s S).isSome = true
      · rw [hb]
        symm
        rw [Bool.and_eq_true, decide_eq_true_iff]
        exact ⟨(hiff.mp hb).1, (hiff.mp hb).2⟩
      · rw [Bool.not_eq_true] at hb
        rw [hb]
        symm
        rw [Bool.eq_false_iff]
        intro hcontra
        rw [Bool.and_eq_true, decide_eq_true_iff] at hcontra
        have := hiff.mpr ⟨hcontra.1, hcontra.2⟩
        rw [hb] at this
        cases this
    have hvals : ((successorsOf tasks x).filter
          (fun s => decide (s ∈ sorted.drop (i+1)) && (findTask tasks s).isSome)).map
          (fun s => (((mapGet? s S).map LsLf.ls).getD 0))
        = ((successorsOf tasks x).filter
          (fun s => decide (s ∈ sorted.drop (i+1)) && (findTask tasks s).isSome)).map
          (fun s => (((mapGet? s (backwardPass tasks sorted D)).map LsLf.ls).getD 0)) := by
      apply List.map_congr_left
      intro s hs
      have hdec := (List.mem_filter.mp hs).2
      rw [Bool.and_eq_true, decide_eq_true_iff] at hdec
      have hs_drop : s ∈ sorted.drop (i+1) := hdec.1
      have hs_not_take : s ∉ (sorted.take i).reverse := by
        rw [List.mem_reverse]
        intro hm
        exact hmem_take_not s hm (List.mem_cons_of_mem _ hs_drop)
      have hs_ne : x ≠ s := fun he => hx_drop (he ▸ hs_drop)
      have : mapGet? s (backwardPass tasks sorted D) = mapGet? s S := by
        rw [hbwd_eq, bwd_foldl_get_notMem tasks D _ _ s hs_not_take,
          bwdStep_get_ne tasks D S s x hs_ne]
      rw [this]
    have hmain : mapGet? x (backwardPass tasks sorted D)
        = mapGet? x (bwdStep tasks D S x) := by
      have hx_not : x ∉ (sorted.take i).reverse := by
        rw [List.mem_reverse]; exact hx_take
      rw [hbwd_eq, bwd_foldl_get_notMem tasks D _ _ x hx_not]
    rw [hmain, bwdStep_get_self tasks D S x t ht, hfilter, hvals]

/-- The logical project duration fold (lines 206-211) computes the maximum
`ef` of the forward map, clamped below by its 0 initialiser. -/
theorem logicalDurationOf_facts :
    (∀ fwd : List (String × EsEf),
      0 ≤ logicalDurationOf fwd ∧ (∀ e ∈ fwd, e.2.ef ≤ logicalDurationOf fwd) ∧
      (logicalDurationOf fwd = 0 ∨ ∃ e ∈ fwd, e.2.ef = logicalDurationOf fwd)) := by
  intro fwd
  have aux : ∀ (l : List (String × EsEf)) (d : ℚ),
      d ≤ l.foldl (fun d e => if e.2.ef > d then e.2.ef else d) d ∧
      (∀ e ∈ l, e.2.ef ≤ l.foldl (fun d e => if e.2.ef > d then e.2.ef else d) d) ∧
      (l.foldl (fun d e => if e.2.ef > d then e.2.ef else d) d = d ∨
        ∃ e ∈ l, e.2.ef = l.foldl (fun d e => if e.2.ef > d then e.2.ef else d) d) := by
    intro l
    induction l with
    | nil => intro d; exact ⟨le_refl d, by simp, Or.inl rfl⟩
    | cons e l ih =>
      intro d
      rw [List.foldl_cons]
      obtain ⟨ih1, ih2, ih3⟩ := ih (if e.2.ef > d then e.2.ef else d)
      have hd' : d ≤ (if e.2.ef > d then e.2.ef else d) := by
        by_cases h : e.2.ef > d
        · rw [if_pos h]; exact h.le
        · rw [if_neg h]
      have hef : e.2.ef ≤ (if e.2.ef > d then e.2.ef else d) := by
        by_cases h : e.2.ef > d
        · rw [if_pos h]
        · rw [if_neg h]; exact not_lt.mp h
      refine ⟨hd'.trans ih1, ?_, ?_⟩
      · intro e' he'
        rcases List.mem_cons.mp he' with rfl | hm
        · exact hef.trans ih1
        · exact ih2 e' hm
      · rcases ih3 with heq | ⟨e', hm, hv⟩
        · by_cases h : e.2.ef > d
          · exact Or.inr ⟨e, List.mem_cons_self _ _, by rw [heq, if_pos h]⟩
          · exact Or.inl (by rw [heq, if_neg h])
        · exact Or.inr ⟨e', List.mem_cons_of_mem _ hm, hv⟩
  obtain ⟨h1, h2, h3⟩ := aux fwd 0
  exact ⟨h1, h2, h3⟩

/-- Claim C3: the forward pass satisfies the early-start recurrence (dependency
completion and the task's own start-date constraint both lower-bound the
start, with predecessors restricted to those already processed, i.e. earlier
in the order and existing), the backward pass satisfies the late-finish
recurrence over successors processed earlier in the reverse order, and the
logical project duration is the maximum `ef` over all processed tasks
(clamped below by its 0 initialiser). -/
theorem logical_pass_recurrences :
    (∀ (tasks : List Task) (sorted : List String) (anchor D : ℚ), sorted.Nodup →
      ∀ (i : ℕ) (hi : i < sorted.length) (t : Task),
        findTask tasks (sorted.get ⟨i, hi⟩) = some t →
        mapGet? (sorted.get ⟨i, hi⟩) (forwardPass tasks sorted anchor) = some
          ⟨max (maxOrZero (((predecessorsOf tasks (sorted.get ⟨i, hi⟩)).filter
                (fun p => decide (p ∈ sorted.take i) && (findTask tasks p).isSome)).map
                (fun p => (((mapGet? p (forwardPass tasks sorted anchor)).map EsEf.ef).getD 0))))
              (getHoursDifference anchor t.startDate),
            max (maxOrZero (((predecessorsOf tasks (sorted.get ⟨i, hi⟩)).filter
                (fun p => decide (p ∈ sorted.take i) && (findTask tasks p).isSome)).map
                (fun p => (((mapGet? p (forwardPass tasks sorted anchor)).map EsEf.ef).getD 0))))
              (getHoursDifference anchor t.startDate) + t.estimatedDuration⟩ ∧
        mapGet? (sorted.get ⟨i, hi⟩) (backwardPass tasks sorted D) = some
          ⟨minOrBase D (((successorsOf tasks (sorted.get ⟨i, hi⟩)).filter
              (fun s => decide (s ∈ sorted.drop (i+1)) && (findTask tasks s).isSome)).map
              (fun s => (((mapGet? s (backwardPass tasks sorted D)).map LsLf.ls).getD 0)))
              - t.estimatedDuration,
            minOrBase D (((successorsOf tasks (sorted.get ⟨i, hi⟩)).filter
              (fun s => decide (s ∈ sorted.drop (i+1)) && (findTask tasks s).isSome)).map
              (fun s => (((mapGet? s (backwardPass tasks sorted D)).map LsLf.ls).getD 0)))⟩) ∧
    (∀ fwd : List (String × EsEf),
      0 ≤ logicalDurationOf fwd ∧ (∀ e ∈ fwd, e.2.ef ≤ logicalDurationOf fwd) ∧
      (logicalDurationOf fwd = 0 ∨ ∃ e ∈ fwd, e.2.ef = logicalDurationOf fwd)) :=
  ⟨pass_recurrences_core, logicalDurationOf_facts⟩

/-- Witness for C3 on the three-task chain X(2h) → Y(3h) → Z(1h): the forward
and backward entries of `Y` are the recurrence values `es 2, ef 5, ls 2, lf 5`. -/
theorem logical_pass_recurrences_witness :
    mapGet? "Y" (forwardPass [⟨"X", 2, 0, []⟩, ⟨"Y", 3, 0, ["X"]⟩, ⟨"Z", 1, 0, ["Y"]⟩]
        (topologicalSort [⟨"X", 2, 0, []⟩, ⟨"Y", 3, 0, ["X"]⟩, ⟨"Z", 1, 0, ["Y"]⟩]) 0)
      = some ⟨2, 5⟩ ∧
    mapGet? "Y" (backwardPass [⟨"X", 2, 0, []⟩, ⟨"Y", 3, 0, ["X"]⟩, ⟨"Z", 1, 0, ["Y"]⟩]
        (topologicalSort [⟨"X", 2, 0, []⟩, ⟨"Y", 3, 0, ["X"]⟩, ⟨"Z", 1, 0, ["Y"]⟩]) 6)
      = some ⟨2, 5⟩ := by
  have h := logical_pass_recurrences.1 [⟨"X", 2, 0, []⟩, ⟨"Y", 3, 0, ["X"]⟩, ⟨"Z", 1, 0, ["Y"]⟩]
    (topologicalSort [⟨"X", 2, 0, []⟩, ⟨"Y", 3, 0, ["X"]⟩, ⟨"Z", 1, 0, ["Y"]⟩]) 0 6
    (by decide) 1 (by decide) ⟨"Y", 3, 0, ["X"]⟩ (by decide)
  obtain ⟨h1, h2⟩ := h
  have hy : (topologicalSort [⟨"X", (2:ℚ), 0, []⟩, ⟨"Y", 3, 0, ["X"]⟩, ⟨"Z", 1, 0, ["Y"]⟩]).get
      ⟨1, by decide⟩ = "Y" := by decide
  rw [hy] at h1 h2
  exact ⟨h1.trans (by decide), h2.trans (by decide)⟩

/-! Toolkit for task lists with pairwise-distinct ids. -/

theorem any_id_eq (tasks : List Task) (x : String) :
    (tasks.any (fun u => u.id == x)) = true ↔ ∃ t ∈ tasks, t.id = x := by
  rw [List.any_eq_true]
  constructor
  · rintro ⟨t, ht, he⟩
    exact ⟨t, ht, by simpa using he⟩
  · rintro ⟨t, ht, he⟩
    exact ⟨t, ht, by simpa using he⟩

theorem find?_id_self : ∀ (l : List Task), (l.map Task.id).Nodup →
    ∀ t ∈ l, l.find? (fun u => u.id == t.id) = some t := by
  intro l
  induction l with
  | nil => intro _ t ht; cases ht
  | cons u ts ih =>
    intro hnd t ht
    rw [List.map_cons, List.nodup_cons] at hnd
    rcases List.mem_cons.mp ht with rfl | hm
    · exact List.find?_cons_of_pos _ (by simp)
    · rw [List.find?_cons_of_neg, ih hnd.2 t hm]
      simp only [beq_iff_eq]
      intro he
      exact hnd.1 (he ▸ List.mem_map_of_mem Task.id hm)

theorem findTask_self (tasks : List Task) (hids : (tasks.map Task.id).Nodup)
    (t : Task) (ht : t ∈ tasks) : findTask tasks t.id = some t := by
  unfold findTask
  exact find?_id_self tasks.reverse (by simpa using hids) t (List.mem_reverse.mpr ht)

theorem id_injective (tasks : List Task) (hids : (tasks.map Task.id).Nodup)
    {t u : Task} (ht : t ∈ tasks) (hu : u ∈ tasks) (he : t.id = u.id) : t = u := by
  have h1 := findTask_self tasks hids t ht
  have h2 := findTask_self tasks hids u hu
  rw [he] at h1
  rw [h1] at h2
  exact Option.some.inj h2

theorem filter_id_eq (tasks : List Task) (hids : (tasks.map Task.id).Nodup)
    (t : Task) (ht : t ∈ tasks) : tasks.filter (fun u => u.id == t.id) = [t] := by
  induction tasks with
  | nil => cases ht
  | cons u ts ih =>
    rw [List.map_cons, List.nodup_cons] at hids
    rcases List.mem_cons.mp ht with rfl | hm
    · rw [List.filter_cons_of_pos (by simp)]
      have : ts.filter (fun v => v.id == t.id) = [] := by
        rw [List.filter_eq_nil_iff]
        intro v hv
        simp only [beq_iff_eq]
        intro he
        exact hids.1 (he ▸ List.mem_map_of_mem Task.id hv)
      rw [this]
    · rw [List.filter_cons_of_neg, ih hids.2 hm]
      simp only [beq_iff_eq]
      intro he
      exact hids.1 (he ▸ List.mem_map_of_mem Task.id hm)

theorem predecessorsOf_eq (tasks : List Task) (hids : (tasks.map Task.id).Nodup)
    (t : Task) (ht : t ∈ tasks) : predecessorsOf tasks t.id = t.dependencies := by
  unfold predecessorsOf
  rw [filter_id_eq tasks hids t ht]
  simp

theorem successorsOf_mem (tasks : List Task) (x s : String) :
    s ∈ successorsOf tasks x ↔ ∃ t ∈ tasks, t.id = s ∧ x ∈ t.dependencies := by
  unfold successorsOf
  rw [List.mem_flatMap]
  constructor
  · rintro ⟨t, ht, hm⟩
    rw [List.mem_map] at hm
    obtain ⟨d, hd, rfl⟩ := hm
    have hd' := List.mem_filter.mp hd
    have : d = x := by simpa using hd'.2
    exact ⟨t, ht, rfl, this ▸ hd'.1⟩
  · rintro ⟨t, ht, rfl, hx⟩
    exact ⟨t, ht, List.mem_map.mpr ⟨x, List.mem_filter.mpr ⟨hx, by simp⟩, rfl⟩⟩

/-- Behaviour of the decrement loop (lines 80-88) over any id-distinct task
list: each task that lists the popped id is decremented exactly once, other
degree entries are untouched, and the enqueued ids are drawn from tasks whose
decremented degree reached zero (degree one beforehand). -/
theorem topoDecrement_fold_spec (taskId : String) :
    ∀ (ts : List Task) (deg : List (String × Int)) (rest : List String),
      (ts.map Task.id).Nodup →
      (∀ t ∈ ts, (mapGet? t.id deg).isSome = true) →
      (∀ t ∈ ts,
        mapGet? t.id (ts.foldl (topoDecStep taskId) (deg, rest)).1
          = some ((mapGet? t.id deg).getD 0 - (if taskId ∈ t.dependencies then 1 else 0))) ∧
      (∀ x, (∀ t ∈ ts, t.id ≠ x) →
        mapGet? x (ts.foldl (topoDecStep taskId) (deg, rest)).1 = mapGet? x deg) ∧
      (∃ pushes,
        (ts.foldl (topoDecStep taskId) (deg, rest)).2 = rest ++ pushes ∧
        pushes.Nodup ∧
        (∀ x ∈ pushes, ∃ t ∈ ts, t.id = x ∧ taskId ∈ t.dependencies ∧
          (mapGet? t.id deg).getD 0 = 1)) := by
  intro ts
  induction ts with
  | nil =>
    intro deg rest _ _
    refine ⟨fun t ht => absurd ht (List.not_mem_nil t), fun x _ => rfl,
      ⟨[], by simp, List.nodup_nil, fun x hx => absurd hx (List.not_mem_nil x)⟩⟩
  | cons t ts ih =>
    intro deg rest hnd hsome
    rw [List.map_cons, List.nodup_cons] at hnd
    have htid_not : ∀ u ∈ ts, u.id ≠ t.id := by
      intro u hu he
      exact hnd.1 (he ▸ List.mem_map_of_mem Task.id hu)
    obtain ⟨n, hn⟩ := Option.isSome_iff_exists.mp (hsome t (List.mem_cons_self _ _))
    by_cases hc : taskId ∈ t.dependencies
    · -- the head task is decremented
      have hstep : topoDecStep taskId (deg, rest) t
          = (mapSet t.id (n - 1) deg, if n - 1 = 0 then rest ++ [t.id] else rest) := by
        simp only [topoDecStep, hc, if_true, hn, Option.getD_some]
        by_cases hz : n - 1 = 0 <;> simp [hz]
      rw [List.foldl_cons, hstep]
      have hsome' : ∀ u ∈ ts, (mapGet? u.id (mapSet t.id (n - 1) deg)).isSome = true := by
        intro u hu
        rw [mapGet?_set, if_neg (fun he => htid_not u hu he.symm)]
        exact hsome u (List.mem_cons_of_mem _ hu)
      obtain ⟨ihA, ihB, pushes', hq', hnd', hprop'⟩ :=
        ih (mapSet t.id (n - 1) deg) (if n - 1 = 0 then rest ++ [t.id] else rest) hnd.2 hsome'
      have hdeg_other : ∀ u ∈ ts, mapGet? u.id (mapSet t.id (n - 1) deg) = mapGet? u.id deg := by
        intro u hu
        rw [mapGet?_set, if_neg (fun he => htid_not u hu he.symm)]
      refine ⟨?_, ?_, ?_⟩
      · intro u hu
        rcases List.mem_cons.mp hu with rfl | hm
        · rw [ihB u.id htid_not, mapGet?_set, if_pos rfl, hn, if_pos hc]
          rfl
        · rw [ihA u hm, hdeg_other u hm]
      · intro x hx
        rw [ihB x (fun u hu => hx u (List.mem_cons_of_mem _ hu)),
          mapGet?_set, if_neg (fun he => hx t (List.mem_cons_self _ _) he)]
      · by_cases hz : n - 1 = 0
        · rw [if_pos hz]
          rw [if_pos hz] at hq'
          refine ⟨t.id :: pushes', ?_, ?_, ?_⟩
          · rw [hq', List.append_assoc]
            rfl
          · rw [List.nodup_cons]
            refine ⟨?_, hnd'⟩
            intro hmem
            obtain ⟨u, hu, hue, -⟩ := hprop' t.id hmem
            exact htid_not u hu hue
          · intro x hx
            rcases List.mem_cons.mp hx with rfl | hm
            · refine ⟨t, List.mem_cons_self _ _, rfl, hc, ?_⟩
              rw [hn]
              show n = 1
              omega
            · obtain ⟨u, hu, hue, hdep, hval⟩ := hprop' x hm
              rw [hdeg_other u hu] at hval
              exact ⟨u, List.mem_cons_of_mem _ hu, hue, hdep, hval⟩
        · rw [if_neg hz]
          rw [if_neg hz] at hq'
          refine ⟨pushes', hq', hnd', ?_⟩
          intro x hx
          obtain ⟨u, hu, hue, hdep, hval⟩ := hprop' x hx
          rw [hdeg_other u hu] at hval
          exact ⟨u, List.mem_cons_of_mem _ hu, hue, hdep, hval⟩
    · -- head task unaffected
      have hstep : topoDecStep taskId (deg, rest) t = (deg, rest) := by
        unfold topoDecStep
        rw [if_neg hc]
      rw [List.foldl_cons, hstep]
      obtain ⟨ihA, ihB, pushes', hq', hnd', hprop'⟩ :=
        ih deg rest hnd.2 (fun u hu => hsome u (List.mem_cons_of_mem _ hu))
      refine ⟨?_, ?_, pushes', hq', hnd', ?_⟩
      · intro u hu
        rcases List.mem_cons.mp hu with rfl | hm
        · rw [ihB u.id htid_not, hn, if_neg hc]
          show some n = some (n - 0)
          rw [Int.sub_zero]
        · exact ihA u hm
      · intro x hx
        exact ihB x (fun u hu => hx u (List.mem_cons_of_mem _ hu))
      · intro x hx
        obtain ⟨u, hu, hue, hdep, hval⟩ := hprop' x hx
        exact ⟨u, List.mem_cons_of_mem _ hu, hue, hdep, hval⟩

/-- Counting bound that keeps cycle members out of the queue: a task with a
dependency `p` inside a set that the emitted list `r` avoids keeps a strictly
positive remaining degree. -/
theorem matchCount_lt_validCount (tasks : List Task) (hids : (tasks.map Task.id).Nodup)
    (t : Task) (ht : t ∈ tasks) (p : String) (hp_dep : p ∈ t.dependencies)
    (hp_task : ∃ u ∈ tasks, u.id = p) (r : List String) (hr : r.Nodup)
    (hrsub : ∀ x ∈ r, ∃ u ∈ tasks, u.id = x) (hpr : p ∉ r) :
    matchCount r t < validCount tasks t := by
  have hV : validCount tasks t
      = (t.dependencies.filter (fun x => tasks.any (fun u => u.id == x))).length := by
    unfold validCount
    rw [predecessorsOf_eq tasks hids t ht]
  set V := t.dependencies.dedup.filter (fun x => tasks.any (fun u => u.id == x)) with hVdef
  have hVnd : V.Nodup := (List.nodup_dedup _).filter _
  have hpV : p ∈ V :=
    List.mem_filter.mpr ⟨List.mem_dedup.mpr hp_dep, (any_id_eq tasks p).mpr hp_task⟩
  have hsub : (r.filter (fun x => decide (x ∈ t.dependencies))) ⊆ V.erase p := by
    intro x hx
    have hxr := (List.mem_filter.mp hx).1
    have hxdep : x ∈ t.dependencies := by simpa using (List.mem_filter.mp hx).2
    have hxV : x ∈ V :=
      List.mem_filter.mpr ⟨List.mem_dedup.mpr hxdep, (any_id_eq tasks x).mpr (hrsub x hxr)⟩
    have hne : x ≠ p := fun he => hpr (he ▸ hxr)
    exact (List.mem_erase_of_ne hne).mpr hxV
  have hlen1 : matchCount r t ≤ (V.erase p).length := by
    unfold matchCount
    exact ((hr.filter _).subperm hsub).length_le
  have hlen2 : (V.erase p).length = V.length - 1 := List.length_erase_of_mem hpV
  have hlen3 : V.length ≤ validCount tasks t := by
    rw [hV]
    exact ((List.dedup_sublist _).filter _).length_le
  have hVpos : 0 < V.length := List.length_pos_of_mem hpV
  omega

theorem foldl_mapSet_get_notMem {α : Type} (g : Task → α) :
    ∀ (ts : List Task) (init : List (String × α)) (x : String), x ∉ ts.map Task.id →
      mapGet? x (ts.foldl (fun m u => mapSet u.id (g u) m) init) = mapGet? x init := by
  intro ts
  induction ts with
  | nil => intro init x _; rfl
  | cons u ts ih =>
    intro init x hx
    rw [List.map_cons] at hx
    have hne : u.id ≠ x := fun he => hx (he ▸ List.mem_cons_self _ _)
    rw [List.foldl_cons, ih _ x (fun hm => hx (List.mem_cons_of_mem _ hm)),
      mapGet?_set, if_neg hne]

theorem foldl_mapSet_get {α : Type} (g : Task → α) :
    ∀ (ts : List Task), (ts.map Task.id).Nodup →
      ∀ (init : List (String × α)) (t : Task), t ∈ ts →
        mapGet? t.id (ts.foldl (fun m u => mapSet u.id (g u) m) init) = some (g t) := by
  intro ts
  induction ts with
  | nil => intro _ _ t ht; cases ht
  | cons u ts ih =>
    intro hnd init t ht
    rw [List.map_cons, List.nodup_cons] at hnd
    rw [List.foldl_cons]
    rcases List.mem_cons.mp ht with rfl | hm
    · rw [foldl_mapSet_get_notMem g ts _ t.id hnd.1, mapGet?_set, if_pos rfl]
    · exact ih hnd.2 _ t hm

/-- The degree map built by lines 60-66 holds exactly each task's valid
in-degree. -/
theorem topoInDegree_get (tasks : List Task) (hids : (tasks.map Task.id).Nodup)
    (t : Task) (ht : t ∈ tasks) :
    mapGet? t.id (topoInDegree tasks) = some ((validCount tasks t : Int)) := by
  exact foldl_mapSet_get (fun u => ((validCount tasks u : ℕ) : Int)) tasks hids [] t ht

/-- How appending one emitted id changes the decrement count. -/
theorem matchCount_append (r : List String) (y : String) (t : Task) :
    matchCount (r ++ [y]) t
      = matchCount r t + (if y ∈ t.dependencies then 1 else 0) := by
  unfold matchCount
  rw [List.filter_append, List.length_append]
  by_cases h : y ∈ t.dependencies <;> simp [h]

/-- The invariant holds for the initial state of Kahn's algorithm. -/
theorem topoInv_init (tasks : List Task) (hids : (tasks.map Task.id).Nodup)
    (c : List String)
    (hc : ∀ x ∈ c, ∃ t ∈ tasks, t.id = x ∧ ∃ p ∈ c, p ∈ t.dependencies) :
    TopoInv tasks c (topoInitQueue tasks (topoInDegree tasks)) [] (topoInDegree tasks) := by
  have hq_char : ∀ x ∈ topoInitQueue tasks (topoInDegree tasks),
      ∃ t ∈ tasks, t.id = x ∧ validCount tasks t = 0 := by
    intro x hx
    unfold topoInitQueue at hx
    rw [List.mem_map] at hx
    obtain ⟨t, htf, rfl⟩ := hx
    have hmt := List.mem_filter.mp htf
    have hval : mapGet? t.id (topoInDegree tasks) = some ((validCount tasks t : ℕ) : Int) :=
      topoInDegree_get tasks hids t hmt.1
    have hz : mapGet? t.id (topoInDegree tasks) = some 0 := by simpa using hmt.2
    rw [hval] at hz
    have : ((validCount tasks t : ℕ) : Int) = 0 := Option.some.inj hz
    exact ⟨t, hmt.1, rfl, by exact_mod_cast this⟩
  refine ⟨?_, ?_, ?_, ?_, ?_⟩
  · show ([] ++ topoInitQueue tasks (topoInDegree tasks)).Nodup
    rw [List.nil_append]
    unfold topoInitQueue
    exact ((List.filter_sublist tasks).map Task.id).nodup hids
  · intro x hx
    rw [List.nil_append] at hx
    obtain ⟨t, htm, hte, -⟩ := hq_char x hx
    exact ⟨t, htm, hte⟩
  · intro t htm
    have : matchCount [] t = 0 := rfl
    rw [this, topoInDegree_get tasks hids t htm]
    norm_num
  · intro t htm hmem
    rw [List.nil_append] at hmem
    obtain ⟨u, hum, hue, huv⟩ := hq_char t.id hmem
    have : u = t := id_injective tasks hids hum htm hue
    subst this
    rw [huv]
    exact Nat.zero_le _
  · intro z hz hmem
    rw [List.nil_append] at hmem
    obtain ⟨u, hum, hue, huv⟩ := hq_char z hmem
    obtain ⟨tz, htzm, htze, p, hpc, hpdep⟩ := hc z hz
    have : u = tz := id_injective tasks hids hum htzm (hue.trans htze.symm)
    subst this
    obtain ⟨tp, htpm, htpe, -⟩ := hc p hpc
    have hlt := matchCount_lt_validCount tasks hids u hum p hpdep
      ⟨tp, htpm, htpe⟩ [] List.nodup_nil (fun x hx => absurd hx (List.not_mem_nil x))
      (List.not_mem_nil p)
    rw [huv] at hlt
    exact absurd hlt (by simp [matchCount])

/-- One iteration of the Kahn loop preserves the invariant. -/
theorem topo_iteration (tasks : List Task) (hids : (tasks.map Task.id).Nodup)
    (c : List String)
    (hc : ∀ x ∈ c, ∃ t ∈ tasks, t.id = x ∧ ∃ p ∈ c, p ∈ t.dependencies)
    (taskId : String) (rest result : List String) (deg : List (String × Int))
    (hinv : TopoInv tasks c (taskId :: rest) result deg) :
    TopoInv tasks c (topoDecrement tasks taskId (deg, rest)).2 (result ++ [taskId])
      (topoDecrement tasks taskId (deg, rest)).1 := by
  obtain ⟨k1, k2, k4, k6, k5⟩ := hinv
  have hsome : ∀ t ∈ tasks, (mapGet? t.id deg).isSome = true := by
    intro t htm
    rw [k4 t htm]
    rfl
  obtain ⟨hA, hB, pushes, hq, hpnd, hpush⟩ :=
    topoDecrement_fold_spec taskId tasks deg rest hids hsome
  have hq' : (topoDecrement tasks taskId (deg, rest)).2 = rest ++ pushes := hq
  have hA' : ∀ t ∈ tasks, mapGet? t.id (topoDecrement tasks taskId (deg, rest)).1
      = some ((mapGet? t.id deg).getD 0 - (if taskId ∈ t.dependencies then 1 else 0)) := hA
  -- old combined list is nodup in re-associated form
  have k1' : ((result ++ [taskId]) ++ rest).Nodup := by
    rw [List.append_assoc, List.singleton_append]
    exact k1
  have hmem_old : ∀ x, x ∈ (result ++ [taskId]) ++ rest ↔ x ∈ result ++ taskId :: rest := by
    intro x
    rw [List.append_assoc, List.singleton_append]
  -- any pushed id is fresh and had remaining degree 1
  have hpush_char : ∀ x ∈ pushes, ∃ t ∈ tasks, t.id = x ∧ taskId ∈ t.dependencies ∧
      (validCount tasks t : Int) - (matchCount result t : Int) = 1 := by
    intro x hx
    obtain ⟨t, htm, hte, hdep, hval⟩ := hpush x hx
    refine ⟨t, htm, hte, hdep, ?_⟩
    rw [k4 t htm] at hval
    simpa using hval
  have hpush_fresh : ∀ x ∈ pushes, x ∉ result ++ taskId :: rest := by
    intro x hx hmem
    obtain ⟨t, htm, hte, hdep, hval⟩ := hpush_char x hx
    have := k6 t htm (hte ▸ hmem)
    omega
  refine ⟨?_, ?_, ?_, ?_, ?_⟩
  · -- Nodup
    rw [hq', ← List.append_assoc]
    rw [List.nodup_append]
    refine ⟨k1', hpnd, ?_⟩
    intro x hx hx2
    exact hpush_fresh x hx2 ((hmem_old x).mp hx)
  · -- existing ids
    intro x hx
    rw [hq', ← List.append_assoc] at hx
    rcases List.mem_append.mp hx with hx1 | hx2
    · exact k2 x ((hmem_old x).mp hx1)
    · obtain ⟨t, htm, hte, -, -⟩ := hpush_char x hx2
      exact ⟨t, htm, hte⟩
  · -- degree equality
    intro t htm
    rw [hA' t htm, k4 t htm, matchCount_append]
    by_cases hdep : taskId ∈ t.dependencies
    · simp [hdep]
      ring
    · simp [hdep]
  · -- emitted or queued tasks have no remaining valid dependencies
    intro t htm hmem
    rw [hq', ← List.append_assoc] at hmem
    rcases List.mem_append.mp hmem with hx1 | hx2
    · have h6 := k6 t htm ((hmem_old t.id).mp hx1)
      rw [matchCount_append]
      by_cases hdep : taskId ∈ t.dependencies <;> simp [hdep] <;> omega
    · obtain ⟨u, hum, hue, hdep, hval⟩ := hpush_char t.id hx2
      have : u = t := id_injective tasks hids hum htm hue
      subst this
      rw [matchCount_append, if_pos hdep]
      omega
  · -- cycle-set members never appear
    intro z hz hmem
    rw [hq', ← List.append_assoc] at hmem
    rcases List.mem_append.mp hmem with hx1 | hx2
    · exact k5 z hz ((hmem_old z).mp hx1)
    · obtain ⟨u, hum, hue, hdep, hval⟩ := hpush_char z hx2
      obtain ⟨tz, htzm, htze, p, hpc, hpdep⟩ := hc z hz
      have : u = tz := id_injective tasks hids hum htzm (hue.trans htze.symm)
      subst this
      obtain ⟨tp, htpm, htpe, -⟩ := hc p hpc
      have hrnd : (result ++ [taskId]).Nodup :=
        k1'.sublist (List.sublist_append_left _ _)
      have hrsub : ∀ x ∈ result ++ [taskId], ∃ v ∈ tasks, v.id = x := by
        intro x hx
        exact k2 x ((hmem_old x).mp (List.mem_append_left _ hx))
      have hpnr : p ∉ result ++ [taskId] := by
        intro hpm
        exact k5 p hpc ((hmem_old p).mp (List.mem_append_left _ hpm))
      have hlt := matchCount_lt_validCount tasks hids u hum p hpdep
        ⟨tp, htpm, htpe⟩ (result ++ [taskId]) hrnd hrsub hpnr
      rw [matchCount_append, if_pos hdep] at hlt
      omega

/-- Running the Kahn loop from an invariant state yields a duplicate-free list
of existing task ids avoiding the excluded set. -/
theorem topoLoop_facts (tasks : List Task) (hids : (tasks.map Task.id).Nodup)
    (c : List String)
    (hc : ∀ x ∈ c, ∃ t ∈ tasks, t.id = x ∧ ∃ p ∈ c, p ∈ t.dependencies) :
    ∀ (fuel : ℕ) (queue result : List String) (deg : List (String × Int)),
      TopoInv tasks c queue result deg →
      (topoLoop tasks fuel queue result deg).Nodup ∧
      (∀ x ∈ topoLoop tasks fuel queue result deg, ∃ t ∈ tasks, t.id = x) ∧
      (∀ z ∈ c, z ∉ topoLoop tasks fuel queue result deg) := by
  intro fuel
  induction fuel with
  | zero =>
    intro queue result deg hinv
    show result.Nodup ∧ _
    refine ⟨hinv.1.sublist (List.sublist_append_left _ _), ?_, ?_⟩
    · intro x hx
      exact hinv.2.1 x (List.mem_append_left _ hx)
    · intro z hz hmem
      exact hinv.2.2.2.2 z hz (List.mem_append_left _ hmem)
  | succ fuel ih =>
    intro queue result deg hinv
    cases queue with
    | nil =>
      show result.Nodup ∧ _
      refine ⟨hinv.1.sublist (List.sublist_append_left _ _), ?_, ?_⟩
      · intro x hx
        exact hinv.2.1 x (List.mem_append_left _ hx)
      · intro z hz hmem
        exact hinv.2.2.2.2 z hz (List.mem_append_left _ hmem)
    | cons taskId rest =>
      have hstep := topo_iteration tasks hids c hc taskId rest result deg hinv
      simp only [topoLoop]
      exact ih _ _ _ hstep

/-- `topologicalSort` facts: the output is a duplicate-free list of existing
task ids, and it avoids any closed dependency-cycle set. -/
theorem topologicalSort_facts (tasks : List Task) (hids : (tasks.map Task.id).Nodup)
    (c : List String)
    (hc : ∀ x ∈ c, ∃ t ∈ tasks, t.id = x ∧ ∃ p ∈ c, p ∈ t.dependencies) :
    (topologicalSort tasks).Nodup ∧
    (∀ x ∈ topologicalSort tasks, ∃ t ∈ tasks, t.id = x) ∧
    (∀ z ∈ c, z ∉ topologicalSort tasks) := by
  unfold topologicalSort
  exact topoLoop_facts tasks hids c hc _ _ _ _ (topoInv_init tasks hids c hc)

theorem combineStep_isSome (tasks : List Task) (fwd : List (String × EsEf))
    (bwd : List (String × LsLf)) (sched : List (String × EsEf))
    (acc : List (String × CPMTaskData)) (y x : String)
    (h : (mapGet? x (combineStep tasks fwd bwd sched acc y)).isSome = true) :
    x = y ∨ (mapGet? x acc).isSome = true := by
  unfold combineStep at h
  split at h
  next =>
    rw [mapGet?_set] at h
    by_cases hxy : y = x
    · exact Or.inl hxy.symm
    · rw [if_neg hxy] at h
      exact Or.inr h
  next => exact Or.inr h

/-- `taskData` entries exist only for ids of the topological order, since the
combine fold (lines 286-311) iterates over `sortedIds`. -/
theorem buildTaskData_mem_sorted (tasks : List Task) (fwd : List (String × EsEf))
    (bwd : List (String × LsLf)) (sched : List (String × EsEf)) :
    ∀ (l : List String) (acc : List (String × CPMTaskData)) (x : String),
      (mapGet? x (l.foldl (combineStep tasks fwd bwd sched) acc)).isSome = true →
      x ∈ l ∨ (mapGet? x acc).isSome = true := by
  intro l
  induction l with
  | nil => intro acc x h; exact Or.inr h
  | cons y l ih =>
    intro acc x h
    rw [List.foldl_cons] at h
    rcases ih _ x h with hm | hs
    · exact Or.inl (List.mem_cons_of_mem _ hm)
    · rcases combineStep_isSome tasks fwd bwd sched acc y x hs with rfl | hs'
      · exact Or.inl (List.mem_cons_self _ _)
      · exact Or.inr hs'

/-- The DFS of `buildCriticalPath` keeps `visited` and `path` equal, free of
duplicates, and populated with critical ids only. -/
theorem traverse_inv (tasks : List Task) (td : List (String × CPMTaskData)) (key : String → ℚ) :
    ∀ (fuel : ℕ) (vp : List String × List String) (x : String),
      vp.1 = vp.2 → vp.2.Nodup → (∀ y ∈ vp.2, tdIsCritical td y = true) →
      ((traverse tasks td key fuel vp x).1 = (traverse tasks td key fuel vp x).2 ∧
       (traverse tasks td key fuel vp x).2.Nodup ∧
       (∀ y ∈ (traverse tasks td key fuel vp x).2, tdIsCritical td y = true)) := by
  intro fuel
  induction fuel with
  | zero => intro vp x h1 h2 h3; exact ⟨h1, h2, h3⟩
  | succ fuel ih =>
    intro vp x h1 h2 h3
    simp only [traverse]
    by_cases hv : x ∈ vp.1
    · rw [if_pos hv]
      exact ⟨h1, h2, h3⟩
    · rw [if_neg hv]
      by_cases hcrit : tdIsCritical td x = false
      · rw [if_pos hcrit]
        exact ⟨h1, h2, h3⟩
      · rw [if_neg hcrit]
        have hcrit' : tdIsCritical td x = true := by
          cases hb : tdIsCritical td x
          · exact absurd hb hcrit
          · rfl
        have hxnot2 : x ∉ vp.2 := h1 ▸ hv
        have h1' : (vp.1 ++ [x] : List String) = vp.2 ++ [x] := by rw [h1]
        have h2' : (vp.2 ++ [x]).Nodup := by
          rw [List.nodup_append]
          refine ⟨h2, List.nodup_singleton x, ?_⟩
          intro a ha hax
          rw [List.mem_singleton] at hax
          exact hxnot2 (hax ▸ ha)
        have h3' : ∀ y ∈ vp.2 ++ [x], tdIsCritical td y = true := by
          intro y hy
          rcases List.mem_append.mp hy with hy1 | hy2
          · exact h3 y hy1
          · rw [List.mem_singleton] at hy2
            exact hy2 ▸ hcrit'
        by_cases hany : tasks.any (fun t => t.id == x) = true
        · rw [if_pos hany]
          refine foldl_preserves
            (fun vp : List String × List String =>
              vp.1 = vp.2 ∧ vp.2.Nodup ∧ ∀ y ∈ vp.2, tdIsCritical td y = true)
            (fun (vp : List String × List String) (succ : Task) =>
              traverse tasks td key fuel vp succ.id) ?_ _ _ ⟨h1', h2', h3'⟩
          intro b a hb
          exact ih b a.id hb.1 hb.2.1 hb.2.2
        · rw [if_neg hany]
          exact ⟨h1', h2', h3'⟩

/-- The critical path is duplicate-free and contains critical ids only. -/
theorem buildPathWith_facts (tasks : List Task) (td : List (String × CPMTaskData))
    (key : String → ℚ) :
    (buildPathWith tasks td key).Nodup ∧
    ∀ x ∈ buildPathWith tasks td key, tdIsCritical td x = true := by
  simp only [buildPathWith]
  split
  · exact ⟨List.nodup_nil, fun x hx => absurd hx (List.not_mem_nil x)⟩
  · have hfold := foldl_preserves
      (fun vp : List String × List String =>
        vp.1 = vp.2 ∧ vp.2.Nodup ∧ ∀ y ∈ vp.2, tdIsCritical td y = true)
      (fun vp t => traverse tasks td key (tasks.length + 1) vp t.id)
      (fun b a hb => traverse_inv tasks td key (tasks.length + 1) b a.id hb.1 hb.2.1 hb.2.2)
      (sortByCmp (fun a b => key a.id - key b.id)
        ((tasks.filter (fun t => tdIsCritical td t.id)).filter (fun t =>
          !((predecessorsOf tasks t.id).any (fun p => tdIsCritical td p)))))
      ([], []) ⟨rfl, List.nodup_nil, fun y hy => absurd hy (List.not_mem_nil y)⟩
    exact ⟨hfold.2.1, hfold.2.2⟩

theorem tdIsCritical_isSome (td : List (String × CPMTaskData)) (x : String)
    (h : tdIsCritical td x = true) : (mapGet? x td).isSome = true := by
  unfold tdIsCritical at h
  cases hm : mapGet? x td with
  | none => rw [hm] at h; cases h
  | some d => rfl

/-- Claim C7: on a task set containing a dependency cycle, the engine does not
fail (all functions are total); the topological order is strictly shorter than
the task set; the diagnostic condition of line 197 fires; cycle members reach
neither the topological order, nor `taskData`, nor `criticalPath`; logical
timing is still computed for every id the order retains; and the two-task
cycle A→B→A yields an empty order, empty `taskData` and empty `criticalPath`.
A dependency cycle is witnessed by a closed nonempty id set in which every
member is an existing task with a dependency inside the set. -/
theorem cycle_members_excluded :
    (∀ (tasks : List Task) (c : List String), (tasks.map Task.id).Nodup →
      IsCycleSet tasks c →
      (topologicalSort tasks).length < tasks.length ∧
      cycleWarning tasks = true ∧
      (∀ x ∈ topologicalSort tasks,
        (mapGet? x (pipelineFwd tasks)).isSome = true ∧
        (mapGet? x (pipelineBwd tasks)).isSome = true) ∧
      (∀ z ∈ c, z ∉ topologicalSort tasks ∧
        mapGet? z (pipelineTaskData tasks) = none ∧
        ∀ now : ℚ, z ∉ (calculateCriticalPath now tasks).criticalPath)) ∧
    (topologicalSort [⟨"A", 1, 0, ["B"]⟩, ⟨"B", 1, 0, ["A"]⟩] = [] ∧
     (calculateCriticalPath 0 [⟨"A", 1, 0, ["B"]⟩, ⟨"B", 1, 0, ["A"]⟩]).taskData = [] ∧
     (calculateCriticalPath 0 [⟨"A", 1, 0, ["B"]⟩, ⟨"B", 1, 0, ["A"]⟩]).criticalPath = [] ∧
     cycleWarning [⟨"A", 1, 0, ["B"]⟩, ⟨"B", 1, 0, ["A"]⟩] = true) := by
  constructor
  · intro tasks c hids hC
    obtain ⟨hcne, hcprop⟩ := hC
    obtain ⟨hndS, hsubS, hexcl⟩ := topologicalSort_facts tasks hids c hcprop
    have hsub_ids : ∀ x ∈ topologicalSort tasks, x ∈ tasks.map Task.id := by
      intro x hx
      obtain ⟨t, htm, hte⟩ := hsubS x hx
      exact hte ▸ List.mem_map_of_mem Task.id htm
    obtain ⟨z, hzc⟩ := List.exists_mem_of_ne_nil c hcne
    have hz_id : z ∈ tasks.map Task.id := by
      obtain ⟨t, htm, hte, -⟩ := hcprop z hzc
      exact hte ▸ List.mem_map_of_mem Task.id htm
    have hz_not : z ∉ topologicalSort tasks := hexcl z hzc
    have hlen : (topologicalSort tasks).length < tasks.length := by
      have hsub_erase : topologicalSort tasks ⊆ (tasks.map Task.id).erase z := by
        intro x hx
        have hne : x ≠ z := fun he => hz_not (he ▸ hx)
        exact (List.mem_erase_of_ne hne).mpr (hsub_ids x hx)
      have h1 : (topologicalSort tasks).length ≤ ((tasks.map Task.id).erase z).length :=
        (hndS.subperm hsub_erase).length_le
      have h2 : ((tasks.map Task.id).erase z).length = (tasks.map Task.id).length - 1 :=
        List.length_erase_of_mem hz_id
      have h3 : 0 < (tasks.map Task.id).length := List.length_pos_of_mem hz_id
      rw [← List.length_map tasks Task.id]
      omega
    refine ⟨hlen, ?_, ?_, ?_⟩
    · unfold cycleWarning
      rw [bne_iff_ne]
      omega
    · intro x hx
      obtain ⟨t, htm, hte⟩ := hsubS x hx
      have htf : (findTask tasks x).isSome = true := by
        rw [← hte, findTask_self tasks hids t htm]
        rfl
      constructor
      · exact (fwd_foldl_isSome tasks (pipelineAnchor tasks) (topologicalSort tasks) [] x).mpr
          (Or.inl ⟨hx, htf⟩)
      · exact (bwd_foldl_isSome tasks (logicalDurationOf (pipelineFwd tasks))
          ((topologicalSort tasks).reverse) [] x).mpr
          (Or.inl ⟨List.mem_reverse.mpr hx, htf⟩)
    · intro w hwc
      have hw_not : w ∉ topologicalSort tasks := hexcl w hwc
      have htd_none : mapGet? w (pipelineTaskData tasks) = none := by
        cases hm : mapGet? w (pipelineTaskData tasks) with
        | none => rfl
        | some d =>
          have : (mapGet? w (pipelineTaskData tasks)).isSome = true := by rw [hm]; rfl
          rcases buildTaskData_mem_sorted tasks (pipelineFwd tasks) (pipelineBwd tasks)
            (pipelineSched tasks).sched (topologicalSort tasks) [] w this with hmem | hs
          · exact absurd hmem hw_not
          · cases hs
      refine ⟨hw_not, htd_none, ?_⟩
      intro now hmem
      rw [calculate_criticalPath] at hmem
      have hcrit := (buildPathWith_facts tasks (pipelineTaskData tasks)
        (tdEs (pipelineTaskData tasks))).2 w hmem
      have := tdIsCritical_isSome (pipelineTaskData tasks) w hcrit
      rw [htd_none] at this
      cases this
  · exact ⟨by decide, by decide, by decide, by decide⟩

/-- Witness for C7 at the concrete two-task cycle. -/
theorem cycle_members_excluded_witness :
    (topologicalSort [⟨"A", 1, 0, ["B"]⟩, ⟨"B", 1, 0, ["A"]⟩]).length <
      ([⟨"A", (1:ℚ), 0, ["B"]⟩, ⟨"B", 1, 0, ["A"]⟩] : List Task).length ∧
    cycleWarning [⟨"A", 1, 0, ["B"]⟩, ⟨"B", 1, 0, ["A"]⟩] = true ∧
    (∀ x ∈ topologicalSort [⟨"A", 1, 0, ["B"]⟩, ⟨"B", 1, 0, ["A"]⟩],
      (mapGet? x (pipelineFwd [⟨"A", 1, 0, ["B"]⟩, ⟨"B", 1, 0, ["A"]⟩])).isSome = true ∧
      (mapGet? x (pipelineBwd [⟨"A", 1, 0, ["B"]⟩, ⟨"B", 1, 0, ["A"]⟩])).isSome = true) ∧
    (∀ z ∈ ["A", "B"], z ∉ topologicalSort [⟨"A", 1, 0, ["B"]⟩, ⟨"B", 1, 0, ["A"]⟩] ∧
      mapGet? z (pipelineTaskData [⟨"A", 1, 0, ["B"]⟩, ⟨"B", 1, 0, ["A"]⟩]) = none ∧
      ∀ now : ℚ, z ∉ (calculateCriticalPath now [⟨"A", 1, 0, ["B"]⟩, ⟨"B", 1, 0, ["A"]⟩]).criticalPath) :=
  cycle_members_excluded.1 [⟨"A", 1, 0, ["B"]⟩, ⟨"B", 1, 0, ["A"]⟩] ["A", "B"]
    (by decide) ⟨by decide, by decide⟩

theorem mapGet?_eq_some_mem {α : Type} (k : String) (l : List (String × α)) (v : α)
    (h : mapGet? k l = some v) : (k, v) ∈ l := by
  unfold mapGet? at h
  cases hf : l.find? (fun p => p.1 == k) with
  | none => rw [hf] at h; cases h
  | some pr =>
    rw [hf] at h
    have hm := List.mem_of_find?_eq_some hf
    have hpred := List.find?_some hf
    have hkv : pr = (k, v) := by
      obtain ⟨a, b⟩ := pr
      have h1 : a = k := by simpa using hpred
      have h2 : b = v := by simpa using h
      rw [h1, h2]
    exact hkv ▸ hm

theorem findTask_some_spec (tasks : List Task) (x : String) (u : Task)
    (h : findTask tasks x = some u) : u ∈ tasks ∧ u.id = x := by
  unfold findTask at h
  have hm := List.mem_of_find?_eq_some h
  have hp := List.find?_some h
  exact ⟨List.mem_reverse.mp hm, by simpa using hp⟩

theorem foldl_max_ge : ∀ (xs : List ℚ) (x : ℚ),
    x ≤ xs.foldl max x ∧ ∀ v ∈ xs, v ≤ xs.foldl max x := by
  intro xs
  induction xs with
  | nil => intro x; exact ⟨le_refl x, by simp⟩
  | cons y xs ih =>
    intro x
    rw [List.foldl_cons]
    obtain ⟨ih1, ih2⟩ := ih (max x y)
    refine ⟨(le_max_left x y).trans ih1, ?_⟩
    intro v hv
    rcases List.mem_cons.mp hv with rfl | hm
    · exact (le_max_right x v).trans ih1
    · exact ih2 v hm

theorem le_maxOrZero (l : List ℚ) (v : ℚ) (hv : v ∈ l) : v ≤ maxOrZero l := by
  cases l with
  | nil => cases hv
  | cons x xs =>
    unfold maxOrZero
    rcases List.mem_cons.mp hv with rfl | hm
    · exact (foldl_max_ge xs v).1
    · exact (foldl_max_ge xs x).2 v hm

theorem foldl_min_ge : ∀ (xs : List ℚ) (x c : ℚ), c ≤ x → (∀ v ∈ xs, c ≤ v) →
    c ≤ xs.foldl min x := by
  intro xs
  induction xs with
  | nil => intro x c hc _; exact hc
  | cons y xs ih =>
    intro x c hc hv
    rw [List.foldl_cons]
    exact ih (min x y) c (le_min hc (hv y (List.mem_cons_self _ _)))
      (fun v hm => hv v (List.mem_cons_of_mem _ hm))

theorem le_minOrBase (base : ℚ) (l : List ℚ) (c : ℚ) (hbase : c ≤ base)
    (hl : ∀ v ∈ l, c ≤ v) : c ≤ minOrBase base l := by
  cases l with
  | nil => exact hbase
  | cons x xs =>
    unfold minOrBase
    exact foldl_min_ge xs x c (hl x (List.mem_cons_self _ _))
      (fun v hm => hl v (List.mem_cons_of_mem _ hm))

/-- Backward induction from the ends of the processing order: each processed
id's late start dominates its early start, because its late finish is the
minimum over successors already known to satisfy the property (or the bound
`D` that dominates every early finish). -/
theorem bwd_ls_ge_fwd_es (tasks : List Task) (hids : (tasks.map Task.id).Nodup)
    (sorted : List String) (hnd : sorted.Nodup) (anchor D : ℚ)
    (hD : ∀ e ∈ forwardPass tasks sorted anchor, e.2.ef ≤ D) :
    ∀ (k i : ℕ), sorted.length - i ≤ k →
      ∀ (hi : i < sorted.length) (rf : EsEf) (rb : LsLf),
        mapGet? (sorted.get ⟨i, hi⟩) (forwardPass tasks sorted anchor) = some rf →
        mapGet? (sorted.get ⟨i, hi⟩) (backwardPass tasks sorted D) = some rb →
        rf.es ≤ rb.ls := by
  intro k
  induction k with
  | zero =>
    intro i hk hi
    omega
  | succ k ih =>
    intro i hk hi rf rb hrf hrb
    have hfsome := (fwd_foldl_isSome tasks anchor sorted [] (sorted.get ⟨i, hi⟩)).mp
      (show (mapGet? (sorted.get ⟨i, hi⟩) (forwardPass tasks sorted anchor)).isSome = true by
        rw [hrf]; rfl)
    have htsome : (findTask tasks (sorted.get ⟨i, hi⟩)).isSome = true := by
      rcases hfsome with ⟨-, h⟩ | h
      · exact h
      · cases h
    obtain ⟨t, ht⟩ := Option.isSome_iff_exists.mp htsome
    obtain ⟨hfe, hbe⟩ := pass_recurrences_core tasks sorted anchor D hnd i hi t ht
    rw [hrf] at hfe
    rw [hrb] at hbe
    have hrf_eq := Option.some.inj hfe
    have hrb_eq := Option.some.inj hbe
    -- it suffices that the early finish is below the late finish
    have hef : rf.ef = rf.es + t.estimatedDuration := by
      rw [hrf_eq]
    have hlsf : rb.ls = rb.lf - t.estimatedDuration := by
      rw [hrb_eq]
    have hgoal : rf.ef ≤ rb.lf → rf.es ≤ rb.ls := by
      intro h
      rw [hef] at h
      rw [hlsf]
      linarith
    apply hgoal
    have hlf : rb.lf = minOrBase D (((successorsOf tasks (sorted.get ⟨i, hi⟩)).filter
        (fun s => decide (s ∈ sorted.drop (i+1)) && (findTask tasks s).isSome)).map
        (fun s => (((mapGet? s (backwardPass tasks sorted D)).map LsLf.ls).getD 0))) := by
      rw [hrb_eq]
    rw [hlf]
    apply le_minOrBase
    · exact hD (sorted.get ⟨i, hi⟩, rf) (mapGet?_eq_some_mem _ _ _ hrf)
    · intro v hv
      rw [List.mem_map] at hv
      obtain ⟨s, hsfil, hval⟩ := hv
      have hsmem := List.mem_filter.mp hsfil
      have hssucc : s ∈ successorsOf tasks (sorted.get ⟨i, hi⟩) := hsmem.1
      have hdec := hsmem.2
      rw [Bool.and_eq_true, decide_eq_true_iff] at hdec
      have hs_drop : s ∈ sorted.drop (i+1) := hdec.1
      obtain ⟨ts, hts⟩ := Option.isSome_iff_exists.mp hdec.2
      obtain ⟨hts_mem, hts_id⟩ := findTask_some_spec tasks s ts hts
      -- the successor's position in the order
      obtain ⟨kd, hkd, hkds⟩ := List.mem_iff_getElem.mp hs_drop
      have hjlt : i + 1 + kd < sorted.length := by
        have := List.length_drop (i+1) sorted
        omega
      have hjs : sorted.get ⟨i + 1 + kd, hjlt⟩ = s := by
        rw [← hkds]
        simp [List.getElem_drop]
      -- forward and backward entries of the successor
      have hsf_some : (mapGet? s (forwardPass tasks sorted anchor)).isSome = true := by
        apply (fwd_foldl_isSome tasks anchor sorted [] s).mpr
        exact Or.inl ⟨List.mem_of_mem_drop hs_drop, hdec.2⟩
      have hsb_some : (mapGet? s (backwardPass tasks sorted D)).isSome = true := by
        apply (bwd_foldl_isSome tasks D sorted.reverse [] s).mpr
        exact Or.inl ⟨List.mem_reverse.mpr (List.mem_of_mem_drop hs_drop), hdec.2⟩
      obtain ⟨rfs, hrfs⟩ := Option.isSome_iff_exists.mp hsf_some
      obtain ⟨rbs, hrbs⟩ := Option.isSome_iff_exists.mp hsb_some
      -- induction hypothesis: the successor already satisfies the property
      have hih : rfs.es ≤ rbs.ls := by
        refine ih (i + 1 + kd) (by omega) hjlt rfs rbs ?_ ?_
        · rw [hjs]; exact hrfs
        · rw [hjs]; exact hrbs
      -- the successor's early start dominates our early finish
      have hsfe := (pass_recurrences_core tasks sorted anchor D hnd (i + 1 + kd) hjlt ts
        (by rw [hjs]; exact hts)).1
      rw [hjs, hrfs] at hsfe
      have hrfs_eq := Option.some.inj hsfe
      have hx_pred : sorted.get ⟨i, hi⟩ ∈ predecessorsOf tasks s := by
        obtain ⟨t', ht'm, ht'id, ht'dep⟩ := (successorsOf_mem tasks (sorted.get ⟨i, hi⟩) s).mp hssucc
        have : t' = ts := id_injective tasks hids ht'm hts_mem (ht'id.trans hts_id.symm)
        subst this
        rw [← hts_id, predecessorsOf_eq tasks hids t' hts_mem]
        exact ht'dep
      have hx_take : sorted.get ⟨i, hi⟩ ∈ sorted.take (i + 1 + kd) := by
        have h1 : i < (sorted.take (i + 1 + kd)).length := by
          rw [List.length_take]
          omega
        have h2 : (sorted.take (i + 1 + kd)).get ⟨i, h1⟩ = sorted.get ⟨i, hi⟩ := by
          simp [List.getElem_take]
        rw [← h2]
        exact (sorted.take (i + 1 + kd)).get_mem i h1
      have hx_filter : sorted.get ⟨i, hi⟩ ∈ (predecessorsOf tasks s).filter
          (fun p => decide (p ∈ sorted.take (i + 1 + kd)) && (findTask tasks p).isSome) := by
        apply List.mem_filter.mpr
        refine ⟨hx_pred, ?_⟩
        rw [Bool.and_eq_true, decide_eq_true_iff]
        exact ⟨hx_take, htsome⟩
      have hx_val : rf.ef ∈ ((predecessorsOf tasks s).filter
          (fun p => decide (p ∈ sorted.take (i + 1 + kd)) && (findTask tasks p).isSome)).map
          (fun p => (((mapGet? p (forwardPass tasks sorted anchor)).map EsEf.ef).getD 0)) := by
        apply List.mem_map.mpr
        refine ⟨sorted.get ⟨i, hi⟩, hx_filter, ?_⟩
        rw [hrf]
        rfl
      have hle1 : rf.ef ≤ rfs.es := by
        rw [hrfs_eq]
        exact le_trans (le_maxOrZero _ _ hx_val) (le_max_left _ _)
      -- chain through the successor's late start
      have hvls : v = rbs.ls := by
        rw [← hval, hrbs]
        rfl
      rw [hvls]
      exact le_trans hle1 hih

/-- Claim C6: for every task set (with pairwise-distinct ids, per data model)
whose dependency graph is acyclic, every computed logical float — logical
lateStart minus logical earlyStart — is non-negative. The proof holds for any
processed id; the acyclicity hypothesis matches the claim's wording. -/
theorem float_nonneg (tasks : List Task) (hids : (tasks.map Task.id).Nodup)
    (_hacyc : ¬ HasCycle tasks) (id : String) (rf : EsEf) (rb : LsLf)
    (hf : mapGet? id (pipelineFwd tasks) = some rf)
    (hb : mapGet? id (pipelineBwd tasks) = some rb) :
    0 ≤ rb.ls - rf.es := by
  have hfacts := topologicalSort_facts tasks hids []
    (by intro x hx; cases hx)
  have hdsome : (mapGet? id (pipelineFwd tasks)).isSome = true := by
    rw [hf]; rfl
  have hdom := (fwd_foldl_isSome tasks (pipelineAnchor tasks) (topologicalSort tasks) [] id).mp
    hdsome
  have hmem : id ∈ topologicalSort tasks := by
    rcases hdom with ⟨h, -⟩ | h
    · exact h
    · cases h
  obtain ⟨i, hi, hieq⟩ := List.mem_iff_getElem.mp hmem
  have hD := (logicalDurationOf_facts (pipelineFwd tasks)).2.1
  have := bwd_ls_ge_fwd_es tasks hids (topologicalSort tasks) hfacts.1
    (pipelineAnchor tasks) (logicalDurationOf (pipelineFwd tasks)) hD
    (topologicalSort tasks).length i (by omega) hi rf rb
    (by show mapGet? ((topologicalSort tasks).get ⟨i, hi⟩) (pipelineFwd tasks) = some rf
        have : (topologicalSort tasks).get ⟨i, hi⟩ = id := hieq
        rw [this]; exact hf)
    (by show mapGet? ((topologicalSort tasks).get ⟨i, hi⟩) (pipelineBwd tasks) = some rb
        have : (topologicalSort tasks).get ⟨i, hi⟩ = id := hieq
        rw [this]; exact hb)
  linarith

/-- The three-task chain X → Y → Z has no dependency cycle. -/
theorem chain3_no_cycle :
    ¬ HasCycle [⟨"X", 2, 0, []⟩, ⟨"Y", 3, 0, ["X"]⟩, ⟨"Z", 1, 0, ["Y"]⟩] := by
  rintro ⟨c, hcne, hprop⟩
  have hX : "X" ∉ c := by
    intro hx
    obtain ⟨t, htm, hte, p, hpc, hpdep⟩ := hprop "X" hx
    simp only [List.mem_cons, List.not_mem_nil, or_false] at htm
    rcases htm with rfl | rfl | rfl
    · cases hpdep
    · exact absurd hte (by decide)
    · exact absurd hte (by decide)
  have hY : "Y" ∉ c := by
    intro hy
    obtain ⟨t, htm, hte, p, hpc, hpdep⟩ := hprop "Y" hy
    simp only [List.mem_cons, List.not_mem_nil, or_false] at htm
    rcases htm with rfl | rfl | rfl
    · exact absurd hte (by decide)
    · rw [List.mem_singleton] at hpdep
      exact hX (hpdep ▸ hpc)
    · exact absurd hte (by decide)
  have hZ : "Z" ∉ c := by
    intro hz
    obtain ⟨t, htm, hte, p, hpc, hpdep⟩ := hprop "Z" hz
    simp only [List.mem_cons, List.not_mem_nil, or_false] at htm
    rcases htm with rfl | rfl | rfl
    · exact absurd hte (by decide)
    · exact absurd hte (by decide)
    · rw [List.mem_singleton] at hpdep
      exact hY (hpdep ▸ hpc)
  obtain ⟨z, hz⟩ := List.exists_mem_of_ne_nil c hcne
  obtain ⟨t, htm, hte, -⟩ := hprop z hz
  simp only [List.mem_cons, List.not_mem_nil, or_false] at htm
  rcases htm with rfl | rfl | rfl
  · exact hX (by rw [← hte] at hz; exact hz)
  · exact hY (by rw [← hte] at hz; exact hz)
  · exact hZ (by rw [← hte] at hz; exact hz)

/-- Witness for C6 on the acyclic chain X(2h) → Y(3h) → Z(1h) at id `Y`. -/
theorem float_nonneg_witness :
    (0 : ℚ) ≤ (⟨2, 5⟩ : LsLf).ls - (⟨2, 5⟩ : EsEf).es :=
  float_nonneg [⟨"X", 2, 0, []⟩, ⟨"Y", 3, 0, ["X"]⟩, ⟨"Z", 1, 0, ["Y"]⟩]
    (by decide) chain3_no_cycle "Y" ⟨2, 5⟩ ⟨2, 5⟩ (by decide) (by decide)

/-- Claim C8, counterexample: both `A` (logical earlyStart 1) and `B` (logical
earlyStart 1.0004) are critical roots, yet the produced path is `[B, A]` —
descending in logical earlyStart — because `buildCriticalPath` orders by the
`taskData` `es` field, which holds the serial-schedule start (here swapped by
the scheduler's epsilon tie-break); the claim's logical-earlyStart ordering
(`claimedCriticalPath`) would give `[A, B]`. -/
theorem critical_path_ordering_counterexample :
    (calculateCriticalPath 0 [⟨"A", 2, 3600000, ["P"]⟩, ⟨"P", 5/10000, 0, []⟩,
        ⟨"B", 19996/10000, 3601440, []⟩]).criticalPath = ["B", "A"] ∧
    claimedCriticalPath [⟨"A", 2, 3600000, ["P"]⟩, ⟨"P", 5/10000, 0, []⟩,
        ⟨"B", 19996/10000, 3601440, []⟩]
      (pipelineTaskData [⟨"A", 2, 3600000, ["P"]⟩, ⟨"P", 5/10000, 0, []⟩,
        ⟨"B", 19996/10000, 3601440, []⟩])
      (pipelineFwd [⟨"A", 2, 3600000, ["P"]⟩, ⟨"P", 5/10000, 0, []⟩,
        ⟨"B", 19996/10000, 3601440, []⟩]) = ["A", "B"] ∧
    logEs (pipelineFwd [⟨"A", 2, 3600000, ["P"]⟩, ⟨"P", 5/10000, 0, []⟩,
        ⟨"B", 19996/10000, 3601440, []⟩]) "A" = 1 ∧
    logEs (pipelineFwd [⟨"A", 2, 3600000, ["P"]⟩, ⟨"P", 5/10000, 0, []⟩,
        ⟨"B", 19996/10000, 3601440, []⟩]) "B" = 2501/2500 ∧
    tdIsCritical (pipelineTaskData [⟨"A", 2, 3600000, ["P"]⟩, ⟨"P", 5/10000, 0, []⟩,
        ⟨"B", 19996/10000, 3601440, []⟩]) "A" = true ∧
    tdIsCritical (pipelineTaskData [⟨"A", 2, 3600000, ["P"]⟩, ⟨"P", 5/10000, 0, []⟩,
        ⟨"B", 19996/10000, 3601440, []⟩]) "B" = true ∧
    tdIsCritical (pipelineTaskData [⟨"A", 2, 3600000, ["P"]⟩, ⟨"P", 5/10000, 0, []⟩,
        ⟨"B", 19996/10000, 3601440, []⟩]) "P" = false ∧
    (1 : ℚ) < 2501/2500 := by decide

/-- Claim C8, amended: the critical path is the depth-first linearisation of
the critical subgraph — roots are critical tasks with no critical predecessor,
roots and sibling successors are ordered by ascending *serial-schedule* start
(the `taskData` `es` field, not the logical earlyStart), each task is recorded
at most once (first visit wins), and no non-critical task ever appears. -/
theorem critical_path_construction_amended :
    ∀ (now : ℚ) (tasks : List Task),
      (calculateCriticalPath now tasks).criticalPath
        = buildPathWith tasks (pipelineTaskData tasks) (tdEs (pipelineTaskData tasks)) ∧
      (calculateCriticalPath now tasks).criticalPath.Nodup ∧
      (∀ x ∈ (calculateCriticalPath now tasks).criticalPath,
        tdIsCritical (pipelineTaskData tasks) x = true) := by
  intro now tasks
  have h := calculate_criticalPath now tasks
  have hfacts := buildPathWith_facts tasks (pipelineTaskData tasks)
    (tdEs (pipelineTaskData tasks))
  refine ⟨h, ?_, ?_⟩
  · rw [h]
    exact hfacts.1
  · rw [h]
    exact hfacts.2

/-- Witness for the amended C8 on the chain X(2h) → Y(3h) → Z(1h). -/
theorem critical_path_construction_amended_witness :
    (calculateCriticalPath 0 [⟨"X", 2, 0, []⟩, ⟨"Y", 3, 0, ["X"]⟩, ⟨"Z", 1, 0, ["Y"]⟩]).criticalPath
      = buildPathWith [⟨"X", 2, 0, []⟩, ⟨"Y", 3, 0, ["X"]⟩, ⟨"Z", 1, 0, ["Y"]⟩]
        (pipelineTaskData [⟨"X", 2, 0, []⟩, ⟨"Y", 3, 0, ["X"]⟩, ⟨"Z", 1, 0, ["Y"]⟩])
        (tdEs (pipelineTaskData [⟨"X", 2, 0, []⟩, ⟨"Y", 3, 0, ["X"]⟩, ⟨"Z", 1, 0, ["Y"]⟩])) ∧
    tdIsCritical (pipelineTaskData [⟨"X", 2, 0, []⟩, ⟨"Y", 3, 0, ["X"]⟩, ⟨"Z", 1, 0, ["Y"]⟩])
      "Y" = true :=
  ⟨(critical_path_construction_amended 0
      [⟨"X", 2, 0, []⟩, ⟨"Y", 3, 0, ["X"]⟩, ⟨"Z", 1, 0, ["Y"]⟩]).1,
   (critical_path_construction_amended 0
      [⟨"X", 2, 0, []⟩, ⟨"Y", 3, 0, ["X"]⟩, ⟨"Z", 1, 0, ["Y"]⟩]).2.2 "Y" (by decide)⟩

/-! Comparator algebra for the ready-queue sort (lines 243-251). -/

theorem schedCmp_eq (bwd : List (String × LsLf)) (tasks : List Task) (a b : String) :
    schedCmp bwd tasks a b =
      if |lsOf bwd a - lsOf bwd b| > 1/1000 then lsOf bwd a - lsOf bwd b
      else durOf tasks b - durOf tasks a := rfl

theorem schedCmp_self (bwd : List (String × LsLf)) (tasks : List Task) (a : String) :
    schedCmp bwd tasks a a = 0 := by
  rw [schedCmp_eq]
  split_ifs <;> ring

theorem schedCmp_antisymm (bwd : List (String × LsLf)) (tasks : List Task) (a b : String) :
    schedCmp bwd tasks b a = -(schedCmp bwd tasks a b) := by
  rw [schedCmp_eq, schedCmp_eq, abs_sub_comm (lsOf bwd b)]
  split_ifs <;> ring

theorem schedCmp_total (bwd : List (String × LsLf)) (tasks : List Task) (a b : String) :
    schedCmp bwd tasks a b ≤ 0 ∨ schedCmp bwd tasks b a ≤ 0 := by
  rcases le_total (schedCmp bwd tasks a b) 0 with h | h
  · exact Or.inl h
  · refine Or.inr ?_
    rw [schedCmp_antisymm]
    linarith

/-- `schedCmp a b ≤ 0` says exactly that `b` does not dominate `a` under the
claim's priority rule: `b` is neither more than 1e-3 of lateStart earlier, nor
tied within 1e-3 with a strictly larger duration. -/
theorem schedCmp_le_iff (bwd : List (String × LsLf)) (tasks : List Task) (a b : String) :
    schedCmp bwd tasks a b ≤ 0 ↔
      ¬ (lsOf bwd b < lsOf bwd a - 1/1000 ∨
         (|lsOf bwd b - lsOf bwd a| ≤ 1/1000 ∧ durOf tasks a < durOf tasks b)) := by
  rw [schedCmp_eq]
  by_cases hgt : |lsOf bwd a - lsOf bwd b| > 1/1000
  · rw [if_pos hgt]
    constructor
    · intro h hc
      rcases hc with hc | hc
      · linarith
      · rw [abs_sub_comm] at hc
        linarith [hc.1]
    · intro h
      by_contra hpos
      push_neg at hpos
      apply h
      left
      rw [abs_of_pos hpos] at hgt
      linarith
  · rw [if_neg hgt]
    push_neg at hgt
    have hboth := abs_le.mp hgt
    constructor
    · intro h hc
      rcases hc with hc | hc
      · linarith [hboth.2]
      · linarith [hc.2]
    · intro h
      by_contra hpos
      push_neg at hpos
      exact h (Or.inr ⟨by rw [abs_sub_comm]; exact hgt, by linarith⟩)

/-! The stable sort: membership and head minimality. -/

theorem insertByCmp_mem {α : Type} (cmp : α → α → ℚ) (a x : α) (l : List α) :
    x ∈ insertByCmp cmp a l ↔ x = a ∨ x ∈ l := by
  induction l with
  | nil => simp [insertByCmp]
  | cons b l ih =>
    simp only [insertByCmp]
    split_ifs with h
    · simp [List.mem_cons]
    · simp only [List.mem_cons, ih]
      tauto

theorem sortByCmp_mem {α : Type} (cmp : α → α → ℚ) (x : α) (l : List α) :
    x ∈ sortByCmp cmp l ↔ x ∈ l := by
  induction l with
  | nil => simp [sortByCmp]
  | cons a l ih =>
    rw [sortByCmp, insertByCmp_mem]
    simp [List.mem_cons, ih]

/-- When the comparator is reflexive, total and transitive on the members of
`l`, the head of the insertion sort is a minimum of `l`. -/
theorem sortByCmp_head_min {α : Type} (cmp : α → α → ℚ) :
    ∀ (l : List α),
      (∀ a ∈ l, cmp a a ≤ 0) →
      (∀ a ∈ l, ∀ b ∈ l, cmp a b ≤ 0 ∨ cmp b a ≤ 0) →
      (∀ a ∈ l, ∀ b ∈ l, ∀ c ∈ l, cmp a b ≤ 0 → cmp b c ≤ 0 → cmp a c ≤ 0) →
      ∀ h t, sortByCmp cmp l = h :: t → ∀ x ∈ l, cmp h x ≤ 0 := by
  intro l
  induction l with
  | nil =>
    intro _ _ _ h t hsort
    simp [sortByCmp] at hsort
  | cons a l ih =>
    intro hrefl htot htrans h t hsort x hx
    have hrefl' : ∀ b ∈ l, cmp b b ≤ 0 :=
      fun b hb => hrefl b (List.mem_cons_of_mem a hb)
    have htot' : ∀ b ∈ l, ∀ c ∈ l, cmp b c ≤ 0 ∨ cmp c b ≤ 0 :=
      fun b hb c hc => htot b (List.mem_cons_of_mem a hb) c (List.mem_cons_of_mem a hc)
    have htrans' : ∀ b ∈ l, ∀ c ∈ l, ∀ d ∈ l,
        cmp b c ≤ 0 → cmp c d ≤ 0 → cmp b d ≤ 0 :=
      fun b hb c hc d hd => htrans b (List.mem_cons_of_mem a hb) c
        (List.mem_cons_of_mem a hc) d (List.mem_cons_of_mem a hd)
    rw [sortByCmp] at hsort
    cases hsl : sortByCmp cmp l with
    | nil =>
      rw [hsl] at hsort
      simp only [insertByCmp] at hsort
      obtain ⟨rfl, rfl⟩ := List.cons.inj hsort
      rcases List.mem_cons.mp hx with rfl | hxl
      · exact hrefl x (List.mem_cons_self x l)
      · have hmem := (sortByCmp_mem cmp x l).mpr hxl
        rw [hsl] at hmem
        simp at hmem
    | cons h' t' =>
      rw [hsl] at hsort
      simp only [insertByCmp] at hsort
      have hh'l : h' ∈ l := by
        have : h' ∈ sortByCmp cmp l := by
          rw [hsl]
          exact List.mem_cons_self h' t'
        exact (sortByCmp_mem cmp h' l).mp this
      by_cases hah : cmp a h' ≤ 0
      · rw [if_pos hah] at hsort
        obtain ⟨rfl, -⟩ := List.cons.inj hsort
        rcases List.mem_cons.mp hx with rfl | hxl
        · exact hrefl x (List.mem_cons_self x l)
        · have hmin := ih hrefl' htot' htrans' h' t' hsl x hxl
          exact htrans a (List.mem_cons_self a l) h' (List.mem_cons_of_mem a hh'l)
            x (List.mem_cons_of_mem a hxl) hah hmin
      · rw [if_neg hah] at hsort
        obtain ⟨rfl, -⟩ := List.cons.inj hsort
        rcases List.mem_cons.mp hx with rfl | hxl
        · rcases htot x (List.mem_cons_self x l) h' (List.mem_cons_of_mem x hh'l)
            with hc | hc
          · exact absurd hc hah
          · exact hc
        · exact ih hrefl' htot' htrans' h' t' hsl x hxl

/-- Claim C4, counterexample: with lateStarts A = 0, B = 0.0013, C = 0.0006
the 1e-3 comparator is not transitive (A ties with C, C ties with B, but A
beats B outright), and the stable sort of the ready queue `[A, B, C]` performs
only the comparisons A-B (separated, A first) and B-C (tie, longer B first),
leaving `A` first; so the first scheduled task is `A` — even though `C` is
ready, its lateStart ties with `A` within 1e-3, and its duration is strictly
larger, so the claim's rule demands `C`. Every band decision carries a margin
of at least 3e-4 from the 1e-3 edge, so the same comparisons come out
identically under the source's IEEE-754 arithmetic (lsB = 0.0012999…,
lsC = 0.0006000…, |lsB − lsC| = 0.0006999… ≤ 0.001), where the run A ≤ B ≤ C
is already ascending for the comparator and a stable sort returns it
unchanged. -/
theorem scheduler_selection_counterexample :
    "C" ∈ (schedInit [⟨"A", 1, 0, []⟩, ⟨"B", 3, 0, []⟩, ⟨"C", 2, 0, []⟩,
      ⟨"SA", 9, 0, ["A"]⟩, ⟨"SB", 69987/10000, 0, ["B"]⟩,
      ⟨"SC", 79994/10000, 0, ["C"]⟩]).queue ∧
    (schedStep [⟨"A", 1, 0, []⟩, ⟨"B", 3, 0, []⟩, ⟨"C", 2, 0, []⟩,
        ⟨"SA", 9, 0, ["A"]⟩, ⟨"SB", 69987/10000, 0, ["B"]⟩,
        ⟨"SC", 79994/10000, 0, ["C"]⟩]
      (pipelineBwd [⟨"A", 1, 0, []⟩, ⟨"B", 3, 0, []⟩, ⟨"C", 2, 0, []⟩,
        ⟨"SA", 9, 0, ["A"]⟩, ⟨"SB", 69987/10000, 0, ["B"]⟩,
        ⟨"SC", 79994/10000, 0, ["C"]⟩])
      (pipelineAnchor [⟨"A", 1, 0, []⟩, ⟨"B", 3, 0, []⟩, ⟨"C", 2, 0, []⟩,
        ⟨"SA", 9, 0, ["A"]⟩, ⟨"SB", 69987/10000, 0, ["B"]⟩,
        ⟨"SC", 79994/10000, 0, ["C"]⟩])
      (schedInit [⟨"A", 1, 0, []⟩, ⟨"B", 3, 0, []⟩, ⟨"C", 2, 0, []⟩,
        ⟨"SA", 9, 0, ["A"]⟩, ⟨"SB", 69987/10000, 0, ["B"]⟩,
        ⟨"SC", 79994/10000, 0, ["C"]⟩])).sched = [("A", ⟨0, 1⟩)] ∧
    |lsOf (pipelineBwd [⟨"A", 1, 0, []⟩, ⟨"B", 3, 0, []⟩, ⟨"C", 2, 0, []⟩,
        ⟨"SA", 9, 0, ["A"]⟩, ⟨"SB", 69987/10000, 0, ["B"]⟩,
        ⟨"SC", 79994/10000, 0, ["C"]⟩]) "C"
      - lsOf (pipelineBwd [⟨"A", 1, 0, []⟩, ⟨"B", 3, 0, []⟩, ⟨"C", 2, 0, []⟩,
        ⟨"SA", 9, 0, ["A"]⟩, ⟨"SB", 69987/10000, 0, ["B"]⟩,
        ⟨"SC", 79994/10000, 0, ["C"]⟩]) "A"| ≤ 1/1000 ∧
    durOf [⟨"A", 1, 0, []⟩, ⟨"B", 3, 0, []⟩, ⟨"C", 2, 0, []⟩,
        ⟨"SA", 9, 0, ["A"]⟩, ⟨"SB", 69987/10000, 0, ["B"]⟩,
        ⟨"SC", 79994/10000, 0, ["C"]⟩] "A"
      < durOf [⟨"A", 1, 0, []⟩, ⟨"B", 3, 0, []⟩, ⟨"C", 2, 0, []⟩,
        ⟨"SA", 9, 0, ["A"]⟩, ⟨"SB", 69987/10000, 0, ["B"]⟩,
        ⟨"SC", 79994/10000, 0, ["C"]⟩] "C" := by decide

/-- Claim C4, amended: one scheduling step pops the head `sel` of the stable
sort of the ready queue under the code's comparator, schedules it at
`max(currentTime, hours from anchor to its startDate)` with finish
`start + duration`, and advances the clock to that finish. The head is a true
minimum-slack choice — no ready task has lateStart more than 1e-3 below
`sel`'s, and none ties within 1e-3 with a strictly larger duration — only when
the comparator is transitive on the queue; the 1e-3 tie band makes it
non-transitive in general, and then the selection can violate the rule. -/
theorem scheduler_step_amended
    (tasks : List Task) (bwd : List (String × LsLf)) (projectStartDate : ℚ)
    (st : SchedState) (sel : String) (rest : List String) (tk : Task)
    (hsort : sortByCmp (schedCmp bwd tasks) st.queue = sel :: rest)
    (hfind : findTask tasks sel = some tk)
    (htrans : ∀ a ∈ st.queue, ∀ b ∈ st.queue, ∀ c ∈ st.queue,
      schedCmp bwd tasks a b ≤ 0 → schedCmp bwd tasks b c ≤ 0 →
        schedCmp bwd tasks a c ≤ 0) :
    sel ∈ st.queue ∧
    (∀ x ∈ st.queue,
      ¬ (lsOf bwd x < lsOf bwd sel - 1/1000 ∨
         (|lsOf bwd x - lsOf bwd sel| ≤ 1/1000 ∧
          durOf tasks sel < durOf tasks x))) ∧
    (schedStep tasks bwd projectStartDate st).sched
      = mapSet sel ⟨max st.time (getHoursDifference projectStartDate tk.startDate),
          max st.time (getHoursDifference projectStartDate tk.startDate)
            + tk.estimatedDuration⟩ st.sched ∧
    (schedStep tasks bwd projectStartDate st).time
      = max st.time (getHoursDifference projectStartDate tk.startDate)
        + tk.estimatedDuration := by
  have hselmem : sel ∈ st.queue := by
    have : sel ∈ sortByCmp (schedCmp bwd tasks) st.queue := by
      rw [hsort]
      exact List.mem_cons_self sel rest
    exact (sortByCmp_mem _ sel st.queue).mp this
  have hmin : ∀ x ∈ st.queue, schedCmp bwd tasks sel x ≤ 0 :=
    sortByCmp_head_min (schedCmp bwd tasks) st.queue
      (fun a _ => le_of_eq (schedCmp_self bwd tasks a))
      (fun a _ b _ => schedCmp_total bwd tasks a b)
      htrans sel rest hsort
  refine ⟨hselmem, ?_, ?_, ?_⟩
  · intro x hx
    exact (schedCmp_le_iff bwd tasks sel x).mp (hmin x hx)
  · simp only [schedStep, hsort, hfind]
  · simp only [schedStep, hsort, hfind]

/-- Witness for the amended C4 on two independent tasks with well-separated
lateStarts. -/
theorem scheduler_step_amended_witness :
    "A" ∈ (schedInit [⟨"A", 1, 0, []⟩, ⟨"B", 2, 0, []⟩]).queue ∧
    (∀ x ∈ (schedInit [⟨"A", 1, 0, []⟩, ⟨"B", 2, 0, []⟩]).queue,
      ¬ (lsOf [("A", ⟨0, 1⟩), ("B", ⟨5, 7⟩)] x
            < lsOf [("A", ⟨0, 1⟩), ("B", ⟨5, 7⟩)] "A" - 1/1000 ∨
         (|lsOf [("A", ⟨0, 1⟩), ("B", ⟨5, 7⟩)] x
              - lsOf [("A", ⟨0, 1⟩), ("B", ⟨5, 7⟩)] "A"| ≤ 1/1000 ∧
          durOf [⟨"A", 1, 0, []⟩, ⟨"B", 2, 0, []⟩] "A"
            < durOf [⟨"A", 1, 0, []⟩, ⟨"B", 2, 0, []⟩] x))) ∧
    (schedStep [⟨"A", 1, 0, []⟩, ⟨"B", 2, 0, []⟩] [("A", ⟨0, 1⟩), ("B", ⟨5, 7⟩)] 0
        (schedInit [⟨"A", 1, 0, []⟩, ⟨"B", 2, 0, []⟩])).sched
      = mapSet "A" ⟨max (schedInit [⟨"A", 1, 0, []⟩, ⟨"B", 2, 0, []⟩]).time
            (getHoursDifference 0 0),
          max (schedInit [⟨"A", 1, 0, []⟩, ⟨"B", 2, 0, []⟩]).time
            (getHoursDifference 0 0) + 1⟩
          (schedInit [⟨"A", 1, 0, []⟩, ⟨"B", 2, 0, []⟩]).sched ∧
    (schedStep [⟨"A", 1, 0, []⟩, ⟨"B", 2, 0, []⟩] [("A", ⟨0, 1⟩), ("B", ⟨5, 7⟩)] 0
        (schedInit [⟨"A", 1, 0, []⟩, ⟨"B", 2, 0, []⟩])).time
      = max (schedInit [⟨"A", 1, 0, []⟩, ⟨"B", 2, 0, []⟩]).time
          (getHoursDifference 0 0) + 1 :=
  scheduler_step_amended [⟨"A", 1, 0, []⟩, ⟨"B", 2, 0, []⟩]
    [("A", ⟨0, 1⟩), ("B", ⟨5, 7⟩)] 0
    (schedInit [⟨"A", 1, 0, []⟩, ⟨"B", 2, 0, []⟩]) "A" ["B"] ⟨"A", 1, 0, []⟩
    (by decide) (by decide) (by decide)

/-! Toolkit for the serial-scheduler invariant (claim C5). -/

theorem insertByCmp_perm {α : Type} (cmp : α → α → ℚ) (a : α) :
    ∀ l : List α, (insertByCmp cmp a l).Perm (a :: l) := by
  intro l
  induction l with
  | nil => simp [insertByCmp]
  | cons b l ih =>
    simp only [insertByCmp]
    split_ifs with h
    · exact List.Perm.refl _
    · exact (List.Perm.cons b ih).trans (List.Perm.swap a b l)

theorem sortByCmp_perm {α : Type} (cmp : α → α → ℚ) :
    ∀ l : List α, (sortByCmp cmp l).Perm l := by
  intro l
  induction l with
  | nil => exact List.Perm.refl _
  | cons a l ih =>
    rw [sortByCmp]
    exact (insertByCmp_perm cmp a (sortByCmp cmp l)).trans (List.Perm.cons a ih)

theorem pairwise_mem_cases {α : Type} {R : α → α → Prop} :
    ∀ {l : List α}, l.Pairwise R → ∀ a ∈ l, ∀ b ∈ l, a = b ∨ R a b ∨ R b a := by
  intro l hp
  induction hp with
  | nil =>
    intro a ha
    exact absurd ha (List.not_mem_nil a)
  | @cons x l hx _ ih =>
    intro a ha b hb
    rcases List.mem_cons.mp ha with rfl | ha'
    · rcases List.mem_cons.mp hb with rfl | hb'
      · exact Or.inl rfl
      · exact Or.inr (Or.inl (hx b hb'))
    · rcases List.mem_cons.mp hb with rfl | hb'
      · exact Or.inr (Or.inr (hx a ha'))
      · exact ih a ha' b hb'

theorem mapSet_notMem_append {α : Type} (k : String) (v : α) :
    ∀ l : List (String × α), k ∉ l.map (fun e => e.1) → mapSet k v l = l ++ [(k, v)] := by
  intro l
  induction l with
  | nil => intro _; rfl
  | cons p l ih =>
    intro hk
    rw [List.map_cons] at hk
    have hne : p.1 ≠ k := fun he => hk (he ▸ List.mem_cons_self _ _)
    obtain ⟨k', v'⟩ := p
    rw [mapSet, if_neg hne, ih (fun hm => hk (List.mem_cons_of_mem _ hm)), List.cons_append]

/-- The value stored by `schedInitDeg` for an existing task: the full,
unfiltered dependency count (the line-225 slip). -/
theorem schedInitDeg_get (tasks : List Task) (hids : (tasks.map Task.id).Nodup)
    (t : Task) (ht : t ∈ tasks) :
    mapGet? t.id (schedInitDeg tasks) = some ((t.dependencies.length : Int)) := by
  have h := foldl_mapSet_get (fun u => (((predecessorsOf tasks u.id).length : ℕ) : Int))
    tasks hids [] t ht
  simp only [predecessorsOf_eq tasks hids t ht] at h
  exact h

/-- Multiplicity of a task's id in the successor list of `sel`: the number of
occurrences of `sel` among that task's dependencies. -/
theorem successorsOf_count (tasks : List Task) (hids : (tasks.map Task.id).Nodup)
    (sel : String) (t : Task) (ht : t ∈ tasks) :
    ((successorsOf tasks sel).filter (fun s => s == t.id)).length
      = (t.dependencies.filter (fun d => d == sel)).length := by
  induction tasks with
  | nil => cases ht
  | cons u ts ih =>
    rw [List.map_cons, List.nodup_cons] at hids
    have hflat : successorsOf (u :: ts) sel
        = ((u.dependencies.filter (fun d => d == sel)).map (fun _ => u.id))
          ++ successorsOf ts sel := by
      rw [successorsOf, List.flatMap_cons]
      rfl
    rw [hflat, List.filter_append, List.length_append]
    rcases List.mem_cons.mp ht with rfl | hm
    · have htail : (successorsOf ts sel).filter (fun s => s == t.id) = [] := by
        rw [List.filter_eq_nil_iff]
        intro s hs
        obtain ⟨w, hw, rfl, -⟩ := (successorsOf_mem ts sel s).mp hs
        simp only [beq_iff_eq]
        intro he
        exact hids.1 (he ▸ List.mem_map_of_mem Task.id hw)
      have hhead : ((t.dependencies.filter (fun d => d == sel)).map
            (fun _ => t.id)).filter (fun s => s == t.id)
          = (t.dependencies.filter (fun d => d == sel)).map (fun _ => t.id) := by
        rw [List.filter_eq_self]
        intro s hs
        obtain ⟨-, -, rfl⟩ := List.mem_map.mp hs
        simp
      rw [htail, hhead, List.length_map]
      simp
    · have hne : u.id ≠ t.id := fun he =>
        hids.1 (he ▸ List.mem_map_of_mem Task.id hm)
      have hhead : ((u.dependencies.filter (fun d => d == sel)).map
            (fun _ => u.id)).filter (fun s => s == t.id) = [] := by
        rw [List.filter_eq_nil_iff]
        intro s hs
        obtain ⟨-, -, rfl⟩ := List.mem_map.mp hs
        simpa using hne
      rw [hhead, ih hids.2 hm]
      simp

/-- Scheduling `sel` removes exactly its occurrences from the unscheduled-
dependency count. -/
theorem filter_notMem_append_length (sel : String) :
    ∀ (deps : List String) (keys : List String), sel ∉ keys →
      ((deps.filter (fun d => decide (d ∉ keys ++ [sel]))).length : Int)
        = ((deps.filter (fun d => decide (d ∉ keys))).length : Int)
          - ((deps.filter (fun d => d == sel)).length : Int) := by
  intro deps
  induction deps with
  | nil => intro keys _; simp
  | cons d deps ih =>
    intro keys hsel
    have ihk := ih keys hsel
    by_cases hds : d = sel
    · subst hds
      rw [List.filter_cons_of_neg (by simp), List.filter_cons_of_pos (by simpa using hsel),
        List.filter_cons_of_pos (by simp)]
      simp only [List.length_cons]
      push_cast
      omega
    · by_cases hdk : d ∈ keys
      · rw [List.filter_cons_of_neg (by simp [hdk]), List.filter_cons_of_neg (by simp [hdk]),
          List.filter_cons_of_neg (by simpa using hds)]
        exact ihk
      · have hdk' : d ∉ keys ++ [sel] := by
          simp only [List.mem_append, List.mem_singleton]
          rintro (h | h)
          · exact hdk h
          · exact hds h
        rw [List.filter_cons_of_pos (by simpa using hdk'), List.filter_cons_of_pos (by simpa using hdk),
          List.filter_cons_of_neg (by simpa using hds)]
        simp only [List.length_cons]
        push_cast
        omega

theorem count_le_filter_notMem (sel : String) :
    ∀ (deps : List String) (keys : List String), sel ∉ keys →
      (deps.filter (fun d => d == sel)).length
        ≤ (deps.filter (fun d => decide (d ∉ keys))).length := by
  intro deps
  induction deps with
  | nil => intro keys _; simp
  | cons d deps ih =>
    intro keys hsel
    have ihk := ih keys hsel
    by_cases hds : d = sel
    · subst hds
      rw [List.filter_cons_of_pos (by simp), List.filter_cons_of_pos (by simpa using hsel)]
      simpa using ihk
    · rw [List.filter_cons_of_neg (by simpa using hds)]
      by_cases hdk : d ∈ keys
      · rw [List.filter_cons_of_neg (by simp [hdk])]
        exact ihk
      · rw [List.filter_cons_of_pos (by simpa using hdk)]
        exact ihk.trans (Nat.le_succ _)

/-- If no more unscheduled dependencies remain than occurrences of `sel`, then
every dependency is either scheduled or `sel` itself. -/
theorem deps_subset_of_count (sel : String) :
    ∀ (deps : List String) (keys : List String), sel ∉ keys →
      ((deps.filter (fun d => decide (d ∉ keys))).length : Int)
        ≤ ((deps.filter (fun d => d == sel)).length : Int) →
      ∀ d ∈ deps, d ∈ keys ++ [sel] := by
  intro deps
  induction deps with
  | nil => intro keys _ _ d hd; cases hd
  | cons d0 deps ih =>
    intro keys hsel hle d hd
    by_cases hds : d0 = sel
    · subst hds
      rw [List.filter_cons_of_pos (by simpa using hsel), List.filter_cons_of_pos (by simp)] at hle
      rcases List.mem_cons.mp hd with rfl | hm
      · exact List.mem_append_right _ (List.mem_singleton.mpr rfl)
      · refine ih keys hsel ?_ d hm
        simp only [List.length_cons] at hle
        push_cast at hle ⊢
        omega
    · by_cases hdk : d0 ∈ keys
      · rw [List.filter_cons_of_neg (by simp [hdk]), List.filter_cons_of_neg (by simpa using hds)]
          at hle
        rcases List.mem_cons.mp hd with rfl | hm
        · exact List.mem_append_left _ hdk
        · exact ih keys hsel hle d hm
      · exfalso
        rw [List.filter_cons_of_pos (by simpa using hdk), List.filter_cons_of_neg (by simpa using hds)]
          at hle
        have hc := count_le_filter_notMem sel deps keys hsel
        simp only [List.length_cons] at hle
        push_cast at hle
        omega

/-- Full behaviour of the successor-update fold (lines 271-278): the ready
queue only grows, by distinct ids drawn from the processed successors whose
(positive) starting degree is at most their multiplicity among the
successors, and every pre-existing degree entry ends decremented by exactly
that multiplicity. -/
theorem schedSuccUpdate_spec :
    ∀ (succs : List String) (d : List (String × Int)) (q : List String),
      ∃ app : List String,
        (schedSuccUpdate succs (d, q)).2 = q ++ app ∧
        (∀ x ∈ app, x ∈ succs) ∧
        app.Nodup ∧
        (∀ x ∈ app, ∀ v : Int, mapGet? x d = some v →
          0 < v ∧ v ≤ ((succs.filter (fun s => s == x)).length : Int)) ∧
        (∀ (k : String) (v : Int), mapGet? k d = some v →
          mapGet? k (schedSuccUpdate succs (d, q)).1
            = some (v - ((succs.filter (fun s => s == k)).length : Int))) := by
  intro succs
  induction succs with
  | nil =>
    intro d q
    refine ⟨[], by simp [schedSuccUpdate], by simp, List.nodup_nil, by simp, ?_⟩
    intro k v hv
    simpa [schedSuccUpdate] using hv
  | cons s ss ih =>
    intro d q
    have hstep : schedSuccUpdate (s :: ss) (d, q)
        = schedSuccUpdate ss (schedSuccStep (d, q) s) := by
      rw [schedSuccUpdate, schedSuccUpdate, List.foldl_cons]
    have hstepval : schedSuccStep (d, q) s
        = if (mapGet? s d).getD 0 - 1 = 0
          then (mapSet s ((mapGet? s d).getD 0 - 1) d, q ++ [s])
          else (mapSet s ((mapGet? s d).getD 0 - 1) d, q) := rfl
    by_cases hz : (mapGet? s d).getD 0 - 1 = 0
    · obtain ⟨app, hq, hmem, hnd, hpos, hdeg⟩ :=
        ih (mapSet s ((mapGet? s d).getD 0 - 1) d) (q ++ [s])
      have hzs : mapGet? s (mapSet s ((mapGet? s d).getD 0 - 1) d) = some 0 := by
        rw [mapGet?_set, if_pos rfl, hz]
      have hsnotin : s ∉ app := by
        intro hs
        exact absurd ((hpos s hs 0 hzs).1) (lt_irrefl 0)
      refine ⟨s :: app, ?_, ?_, List.nodup_cons.mpr ⟨hsnotin, hnd⟩, ?_, ?_⟩
      · rw [hstep, hstepval, if_pos hz, hq, List.append_assoc]
        rfl
      · intro x hx
        rcases List.mem_cons.mp hx with rfl | hx'
        · exact List.mem_cons_self x ss
        · exact List.mem_cons_of_mem s (hmem x hx')
      · intro x hx v hv
        rcases List.mem_cons.mp hx with rfl | hx'
        · have hv1 : v = 1 := by
            rw [hv] at hz
            simp only [Option.getD_some] at hz
            omega
          subst hv1
          refine ⟨one_pos, ?_⟩
          rw [List.filter_cons_of_pos (by simp), List.length_cons]
          push_cast
          omega
        · have hxs : x ≠ s := fun he => hsnotin (he ▸ hx')
          have hvx : mapGet? x (mapSet s ((mapGet? s d).getD 0 - 1) d) = some v := by
            rw [mapGet?_set, if_neg (fun he => hxs he.symm)]
            exact hv
          obtain ⟨hp, hb⟩ := hpos x hx' v hvx
          refine ⟨hp, ?_⟩
          rw [List.filter_cons_of_neg (by simpa using fun he => hxs he.symm)]
          exact hb
      · intro k v hv
        rw [hstep, hstepval, if_pos hz]
        by_cases hks : s = k
        · subst hks
          have hv' : mapGet? s (mapSet s ((mapGet? s d).getD 0 - 1) d)
              = some (v - 1) := by
            rw [mapGet?_set, if_pos rfl, hv]
            simp
          have := hdeg s (v - 1) hv'
          rw [this, List.filter_cons_of_pos (by simp), List.length_cons]
          congr 1
          push_cast
          ring
        · have hv' : mapGet? k (mapSet s ((mapGet? s d).getD 0 - 1) d) = some v := by
            rw [mapGet?_set, if_neg hks]
            exact hv
          have := hdeg k v hv'
          rw [this, List.filter_cons_of_neg (by simpa using hks)]
    · obtain ⟨app, hq, hmem, hnd, hpos, hdeg⟩ :=
        ih (mapSet s ((mapGet? s d).getD 0 - 1) d) q
      refine ⟨app, ?_, ?_, hnd, ?_, ?_⟩
      · rw [hstep, hstepval, if_neg hz]
        exact hq
      · intro x hx
        exact List.mem_cons_of_mem s (hmem x hx)
      · intro x hx v hv
        by_cases hxs : x = s
        · subst hxs
          have hv' : mapGet? x (mapSet x ((mapGet? x d).getD 0 - 1) d)
              = some (v - 1) := by
            rw [mapGet?_set, if_pos rfl, hv]
            simp
          obtain ⟨hp, hb⟩ := hpos x hx (v - 1) hv'
          refine ⟨by omega, ?_⟩
          rw [List.filter_cons_of_pos (by simp), List.length_cons]
          push_cast
          omega
        · have hv' : mapGet? x (mapSet s ((mapGet? s d).getD 0 - 1) d) = some v := by
            rw [mapGet?_set, if_neg (fun he => hxs he.symm)]
            exact hv
          obtain ⟨hp, hb⟩ := hpos x hx v hv'
          refine ⟨hp, ?_⟩
          rw [List.filter_cons_of_neg (by simpa using fun he => hxs he.symm)]
          exact hb
      · intro k v hv
        rw [hstep, hstepval, if_neg hz]
        by_cases hks : s = k
        · subst hks
          have hv' : mapGet? s (mapSet s ((mapGet? s d).getD 0 - 1) d)
              = some (v - 1) := by
            rw [mapGet?_set, if_pos rfl, hv]
            simp
          have := hdeg s (v - 1) hv'
          rw [this, List.filter_cons_of_pos (by simp), List.length_cons]
          congr 1
          push_cast
          ring
        · have hv' : mapGet? k (mapSet s ((mapGet? s d).getD 0 - 1) d) = some v := by
            rw [mapGet?_set, if_neg hks]
            exact hv
          have := hdeg k v hv'
          rw [this, List.filter_cons_of_neg (by simpa using hks)]

/-- The initial scheduler state satisfies the loop invariant. -/
theorem schedInit_inv (tasks : List Task) (hids : (tasks.map Task.id).Nodup) :
    SchedInv tasks (schedInit tasks) := by
  have hkeys : schedKeys (schedInit tasks) = [] := rfl
  have hqdef : (schedInit tasks).queue
      = (tasks.filter
          (fun t => decide ((mapGet? t.id (schedInitDeg tasks)).getD 0 = 0))).map
          (fun t => t.id) := rfl
  refine ⟨?_, ?_, ?_, ?_, ?_, ?_, ?_⟩
  · rw [hkeys, List.nil_append, hqdef]
    exact List.Nodup.sublist ((List.filter_sublist tasks).map Task.id) hids
  · intro x hx
    rw [hkeys, List.nil_append, hqdef] at hx
    obtain ⟨t, ht, rfl⟩ := List.mem_map.mp hx
    exact ⟨t, (List.mem_filter.mp ht).1, rfl⟩
  · intro t ht
    show mapGet? t.id (schedInitDeg tasks) = _
    rw [schedInitDeg_get tasks hids t ht]
    congr 1
    simp only [hkeys]
    simp
  · intro t ht hcase d hd
    exfalso
    rcases hcase with hq | hk
    · rw [hqdef] at hq
      obtain ⟨u, hu, huid⟩ := List.mem_map.mp hq
      have hu2 := List.mem_filter.mp hu
      obtain rfl : u = t := id_injective tasks hids hu2.1 ht huid
      have hc := hu2.2
      rw [schedInitDeg_get tasks hids u hu2.1] at hc
      simp only [Option.getD_some, decide_eq_true_eq, Int.natCast_eq_zero] at hc
      rw [List.length_eq_zero] at hc
      rw [hc] at hd
      cases hd
    · rw [hkeys] at hk
      cases hk
  · intro e he
    exact absurd he (List.not_mem_nil e)
  · exact List.Pairwise.nil
  · intro t ht e he
    rw [show (schedInit tasks).sched = [] from rfl] at he
    simp [mapGet?] at he

/-- Preservation of the scheduler invariant by one scheduling of `sel`. -/
theorem schedStep_inv_core (tasks : List Task)
    (hids : (tasks.map Task.id).Nodup)
    (hdur : ∀ t ∈ tasks, 0 ≤ t.estimatedDuration)
    (st : SchedState) (sel : String) (rest : List String) (tsel : Task)
    (htsel : tsel ∈ tasks) (hidsel : tsel.id = sel)
    (hperm : (sel :: rest).Perm st.queue)
    (hinv : SchedInv tasks st) (es ef : ℚ) (cnt : ℕ)
    (hes : st.time ≤ es) (hef : ef = es + tsel.estimatedDuration) :
    SchedInv tasks
      { queue := (schedSuccUpdate (successorsOf tasks sel) (st.deg, rest)).2
        deg := (schedSuccUpdate (successorsOf tasks sel) (st.deg, rest)).1
        time := ef
        sched := mapSet sel ⟨es, ef⟩ st.sched
        count := cnt } := by
  obtain ⟨h1, h2, h3, h4, h5, h6, h7⟩ := hinv
  have hselq : sel ∈ st.queue := hperm.mem_iff.mp (List.mem_cons_self sel rest)
  have hfresh : sel ∉ schedKeys st :=
    fun hk => (List.nodup_append.mp h1).2.2 hk hselq
  have hrestq : ∀ x ∈ rest, x ∈ st.queue :=
    fun x hx => hperm.mem_iff.mp (List.mem_cons_of_mem sel hx)
  obtain ⟨app, hq, happmem, happnd, happdeg, hdeg⟩ :=
    schedSuccUpdate_spec (successorsOf tasks sel) st.deg rest
  have hsched2 : mapSet sel (⟨es, ef⟩ : EsEf) st.sched = st.sched ++ [(sel, ⟨es, ef⟩)] :=
    mapSet_notMem_append sel _ st.sched hfresh
  have hkeq : (mapSet sel (⟨es, ef⟩ : EsEf) st.sched).map (fun e => e.1)
      = schedKeys st ++ [sel] := by
    rw [hsched2, List.map_append]
    rfl
  have happ_fresh : ∀ x ∈ app, x ∉ schedKeys st ∧ x ∉ st.queue := by
    intro x hx
    obtain ⟨t, ht, rfl, hdep⟩ := (successorsOf_mem tasks sel x).mp (happmem x hx)
    constructor
    · intro hk
      exact hfresh (h4 t ht (Or.inr hk) sel hdep)
    · intro hqx
      exact hfresh (h4 t ht (Or.inl hqx) sel hdep)
  refine ⟨?_, ?_, ?_, ?_, ?_, ?_, ?_⟩
  · show ((mapSet sel (⟨es, ef⟩ : EsEf) st.sched).map (fun e => e.1)
        ++ (schedSuccUpdate (successorsOf tasks sel) (st.deg, rest)).2).Nodup
    rw [hkeq, hq, ← List.append_assoc, List.nodup_append]
    have hmid : ((schedKeys st ++ [sel]) ++ rest).Nodup := by
      rw [List.append_assoc, List.singleton_append]
      exact ((hperm.symm.append_left (schedKeys st)).nodup_iff).mp h1
    refine ⟨hmid, happnd, ?_⟩
    intro x hxA hxapp
    obtain ⟨hk, hqn⟩ := happ_fresh x hxapp
    rcases List.mem_append.mp hxA with hx1 | hx2
    · rcases List.mem_append.mp hx1 with hx3 | hx4
      · exact hk hx3
      · exact hqn (by rw [List.mem_singleton.mp hx4]; exact hselq)
    · exact hqn (hrestq x hx2)
  · show ∀ x ∈ (mapSet sel (⟨es, ef⟩ : EsEf) st.sched).map (fun e => e.1)
        ++ (schedSuccUpdate (successorsOf tasks sel) (st.deg, rest)).2,
      ∃ t ∈ tasks, t.id = x
    rw [hkeq, hq]
    intro x hx
    rcases List.mem_append.mp hx with hx1 | hx2
    · rcases List.mem_append.mp hx1 with hx3 | hx4
      · exact h2 x (List.mem_append_left _ hx3)
      · exact ⟨tsel, htsel, by rw [List.mem_singleton.mp hx4, hidsel]⟩
    · rcases List.mem_append.mp hx2 with hx5 | hx6
      · exact h2 x (List.mem_append_right _ (hrestq x hx5))
      · obtain ⟨t, ht, rfl, -⟩ := (successorsOf_mem tasks sel x).mp (happmem x hx6)
        exact ⟨t, ht, rfl⟩
  · intro t ht
    show mapGet? t.id (schedSuccUpdate (successorsOf tasks sel) (st.deg, rest)).1
      = some (((t.dependencies.filter (fun d => decide
          (d ∉ (mapSet sel (⟨es, ef⟩ : EsEf) st.sched).map (fun e => e.1)))).length : Int))
    rw [hdeg t.id _ (h3 t ht)]
    congr 1
    simp only [hkeq]
    rw [successorsOf_count tasks hids sel t ht,
      filter_notMem_append_length sel t.dependencies (schedKeys st) hfresh]
  · intro t ht hcase d hd
    show d ∈ (mapSet sel (⟨es, ef⟩ : EsEf) st.sched).map (fun e => e.1)
    rw [hkeq]
    rcases hcase with hq' | hk'
    · rw [hq] at hq'
      rcases List.mem_append.mp hq' with hr | ha
      · exact List.mem_append_left _ (h4 t ht (Or.inl (hrestq _ hr)) d hd)
      · obtain ⟨hp, hb⟩ := happdeg t.id ha _ (h3 t ht)
        rw [successorsOf_count tasks hids sel t ht] at hb
        exact deps_subset_of_count sel t.dependencies (schedKeys st) hfresh hb d hd
    · have hk2 : t.id ∈ (mapSet sel (⟨es, ef⟩ : EsEf) st.sched).map (fun e => e.1) := hk'
      rw [hkeq] at hk2
      rcases List.mem_append.mp hk2 with hkk | hks
      · exact List.mem_append_left _ (h4 t ht (Or.inr hkk) d hd)
      · have hts : t.id = sel := List.mem_singleton.mp hks
        exact List.mem_append_left _ (h4 t ht (Or.inl (by rw [hts]; exact hselq)) d hd)
  · show ∀ e ∈ mapSet sel (⟨es, ef⟩ : EsEf) st.sched, e.2.ef ≤ ef
    rw [hsched2]
    intro e he
    have hd0 : 0 ≤ tsel.estimatedDuration := hdur tsel htsel
    rcases List.mem_append.mp he with hold | hnew
    · have h := h5 e hold
      rw [hef]
      linarith
    · rw [List.mem_singleton.mp hnew]
  · show (mapSet sel (⟨es, ef⟩ : EsEf) st.sched).Pairwise (fun a b => a.2.ef ≤ b.2.es)
    rw [hsched2, List.pairwise_append]
    refine ⟨h6, List.pairwise_singleton _ _, ?_⟩
    intro a ha b hb
    rw [List.mem_singleton.mp hb]
    exact (h5 a ha).trans hes
  · intro t ht e he d hd ep hep
    rw [show mapGet? t.id (mapSet sel (⟨es, ef⟩ : EsEf) st.sched)
        = if sel = t.id then some ⟨es, ef⟩ else mapGet? t.id st.sched from mapGet?_set _ _ _ _] at he
    rw [show mapGet? d (mapSet sel (⟨es, ef⟩ : EsEf) st.sched)
        = if sel = d then some ⟨es, ef⟩ else mapGet? d st.sched from mapGet?_set _ _ _ _] at hep
    by_cases hts : sel = t.id
    · rw [if_pos hts] at he
      obtain rfl := (Option.some.inj he)
      have hdk : d ∈ schedKeys st :=
        h4 t ht (Or.inl (by rw [← hts]; exact hselq)) d hd
      have hdne : sel ≠ d := fun he' => hfresh (by rw [he']; exact hdk)
      rw [if_neg hdne] at hep
      have hmem := mapGet?_eq_some_mem d st.sched ep hep
      exact ((h5 (d, ep) hmem).trans hes)
    · rw [if_neg hts] at he
      have htk : t.id ∈ schedKeys st :=
        List.mem_map_of_mem (fun e => e.1) (mapGet?_eq_some_mem t.id st.sched e he)
      by_cases hds : sel = d
      · exfalso
        have hdk := h4 t ht (Or.inr htk) d hd
        exact hfresh (by rw [hds]; exact hdk)
      · rw [if_neg hds] at hep
        exact h7 t ht e he d hd ep hep

/-- One step of the scheduling loop preserves the invariant. -/
theorem schedStep_inv (tasks : List Task) (bwd : List (String × LsLf)) (psd : ℚ)
    (hids : (tasks.map Task.id).Nodup)
    (hdur : ∀ t ∈ tasks, 0 ≤ t.estimatedDuration)
    (st : SchedState) (hinv : SchedInv tasks st) :
    SchedInv tasks (schedStep tasks bwd psd st) := by
  cases hs : sortByCmp (schedCmp bwd tasks) st.queue with
  | nil =>
    simp only [schedStep, hs]
    exact hinv
  | cons sel rest =>
    have hperm : (sel :: rest).Perm st.queue := by
      rw [← hs]
      exact sortByCmp_perm _ _
    have hselq : sel ∈ st.queue := hperm.mem_iff.mp (List.mem_cons_self sel rest)
    obtain ⟨tsel, htsel, hidsel⟩ := hinv.2.1 sel (List.mem_append_right _ hselq)
    have hfind : findTask tasks sel = some tsel := by
      rw [← hidsel]
      exact findTask_self tasks hids tsel htsel
    simp only [schedStep, hs, hfind]
    exact schedStep_inv_core tasks hids hdur st sel rest tsel htsel hidsel hperm hinv
      (max st.time (getHoursDifference psd tsel.startDate)) _ (st.count + 1)
      (le_max_left _ _) rfl

/-- The scheduling loop preserves the invariant for any fuel. -/
theorem schedLoop_inv (tasks : List Task) (bwd : List (String × LsLf)) (psd : ℚ)
    (total : ℕ) (hids : (tasks.map Task.id).Nodup)
    (hdur : ∀ t ∈ tasks, 0 ≤ t.estimatedDuration) :
    ∀ (fuel : ℕ) (st : SchedState), SchedInv tasks st →
      SchedInv tasks (schedLoop tasks bwd psd total fuel st) := by
  intro fuel
  induction fuel with
  | zero => intro st h; exact h
  | succ n ih =>
    intro st h
    rw [schedLoop]
    split_ifs with hc
    · exact ih _ (schedStep_inv tasks bwd psd hids hdur st h)
    · exact h

/-- Claim C5: on id-distinct task sets with positive durations, the serial
schedule is a valid single-resource schedule — every scheduled task starts at
or after the finish of each of its scheduled dependencies, and the execution
intervals of two schedule entries with different ids never overlap (one ends
at or before the other starts). -/
theorem serial_schedule_single_resource
    (tasks : List Task)
    (hids : (tasks.map Task.id).Nodup)
    (hdur : ∀ t ∈ tasks, 0 < t.estimatedDuration) :
    (∀ t ∈ tasks, ∀ e, mapGet? t.id (pipelineSched tasks).sched = some e →
      ∀ d ∈ t.dependencies, ∀ ep, mapGet? d (pipelineSched tasks).sched = some ep →
        ep.ef ≤ e.es) ∧
    (∀ a ∈ (pipelineSched tasks).sched, ∀ b ∈ (pipelineSched tasks).sched,
      a.1 ≠ b.1 → a.2.ef ≤ b.2.es ∨ b.2.ef ≤ a.2.es) := by
  have hdur' : ∀ t ∈ tasks, 0 ≤ t.estimatedDuration := fun t ht => le_of_lt (hdur t ht)
  have hinv : SchedInv tasks (pipelineSched tasks) := by
    show SchedInv tasks (schedLoop tasks (pipelineBwd tasks) (pipelineAnchor tasks)
      tasks.length (tasks.length + 1) (schedInit tasks))
    exact schedLoop_inv tasks (pipelineBwd tasks) (pipelineAnchor tasks) tasks.length
      hids hdur' (tasks.length + 1) (schedInit tasks) (schedInit_inv tasks hids)
  obtain ⟨-, -, -, -, -, h6, h7⟩ := hinv
  refine ⟨h7, ?_⟩
  intro a ha b hb hne
  rcases pairwise_mem_cases h6 a ha b hb with heq | h | h
  · exact absurd (congrArg Prod.fst heq) hne
  · exact Or.inl h
  · exact Or.inr h

/-- Witness for C5 on the two-task chain X(2h) → Y(3h). -/
theorem serial_schedule_single_resource_witness :
    (∀ t ∈ ([⟨"X", 2, 0, []⟩, ⟨"Y", 3, 0, ["X"]⟩] : List Task), ∀ e,
      mapGet? t.id (pipelineSched [⟨"X", 2, 0, []⟩, ⟨"Y", 3, 0, ["X"]⟩]).sched = some e →
      ∀ d ∈ t.dependencies, ∀ ep,
        mapGet? d (pipelineSched [⟨"X", 2, 0, []⟩, ⟨"Y", 3, 0, ["X"]⟩]).sched = some ep →
        ep.ef ≤ e.es) ∧
    (∀ a ∈ (pipelineSched [⟨"X", 2, 0, []⟩, ⟨"Y", 3, 0, ["X"]⟩]).sched,
      ∀ b ∈ (pipelineSched [⟨"X", 2, 0, []⟩, ⟨"Y", 3, 0, ["X"]⟩]).sched,
      a.1 ≠ b.1 → a.2.ef ≤ b.2.es ∨ b.2.ef ≤ a.2.es) :=
  serial_schedule_single_resource [⟨"X", 2, 0, []⟩, ⟨"Y", 3, 0, ["X"]⟩]
    (by decide) (by decide)

end PersonalScheduler
